import Mathlib

/-!
Shallow embedding of the UNCALLED streaming seed-search mapper
(src/src/mapper.cpp) and verification of its specification claims.

Machine integers (u8/u16/u32/u64) are modelled as `Nat`; float
probabilities as `ℚ`.  Where the C++ code subtracts on unsigned types the
embedding uses truncated `Nat` subtraction; theorems add hypotheses that
rule out the wrap-around inputs (which are unreachable in the program).
The companion header `mapper.hpp` is not part of the sources; the handful
of declarations it provides (`Range` accessors, `EventType`, `TYPE_BITS`,
`ALPH_SIZE`) are modelled from the spec and marked as such.
-/

namespace Uncalled

/-- A closed integer interval `[start_, end_]` over the FM suffix-array
domain (u64 in the code). -/
structure Range where
  start_ : Nat
  end_ : Nat
deriving DecidableEq, Repr

/-- Modelled from the spec: `Range::length()` from the missing header,
`length = end − start + 1`.  The u64 expression `end_ - start_ + 1` is
rendered as `end_ + 1 - start_` in `Nat`; the two agree whenever
`start_ ≤ end_ + 1` (every range the code measures). -/
def Range.length (r : Range) : Nat := r.end_ + 1 - r.start_

/-- Modelled from the spec: `Range::is_valid()` from the missing header;
`start ≤ end` for valid ranges, invalid encoded as `start > end`. -/
def Range.is_valid (r : Range) : Bool := decide (r.start_ ≤ r.end_)

/-- Modelled from the spec: `operator<` on `Range` from the missing
header; ordered lexicographically by `(start, end)`. -/
def Range.lt (a b : Range) : Bool :=
  decide (a.start_ < b.start_) || (a.start_ == b.start_ && decide (a.end_ < b.end_))

/-- Event types (enum `EventType` from the missing header; modelled from
the spec: one of MATCH, STAY, with `NUM_TYPES = 2`). -/
inductive EventType where
  | MATCH
  | STAY
deriving DecidableEq, Repr

/-- The integer value of an `EventType` (MATCH = 0, STAY = 1, the C++
enum order implied by `path_type_counts_[EventType::MATCH]`). -/
def EventType.toNat : EventType → Nat
  | .MATCH => 0
  | .STAY => 1

/-- Modelled from the spec: `TYPE_BITS` from the missing header,
nominally 2 bits per packed event type. -/
def TYPE_BITS : Nat := 2

/-- `TYPE_MASK = (1 << TYPE_BITS) - 1` (set in the `Mapper` constructor). -/
def TYPE_MASK : Nat := (1 <<< TYPE_BITS) - 1

/-- `TYPE_ADDS[t] = t << ((MAX_PATH_LEN-2)*TYPE_BITS)` (set in the
`Mapper` constructor); `MAX_PATH_LEN` is passed explicitly as `mpl`. -/
def TYPE_ADDS (mpl : Nat) (t : EventType) : Nat :=
  t.toNat <<< ((mpl - 2) * TYPE_BITS)

/-- `Mapper::PathBuffer`: one candidate alignment path.  The
`path_type_counts_` array of `NUM_TYPES` u8 counters is modelled by the
two fields `counts_match_`/`counts_stay_`; `prob_sums_` holds exactly
the meaningful prefix (indices `0..length` while `length ≤ MAX_PATH_LEN`,
else `0..MAX_PATH_LEN`) of the heap buffer. -/
structure PathBuffer where
  length_ : Nat
  consec_stays_ : Nat
  event_types_ : Nat
  seed_prob_ : ℚ
  fm_range_ : Range
  kmer_ : Nat
  sa_checked_ : Bool
  counts_match_ : Nat
  counts_stay_ : Nat
  prob_sums_ : List ℚ
deriving DecidableEq, Repr

/-- `path_type_counts_[t]`. -/
def PathBuffer.path_type_counts_ (p : PathBuffer) : EventType → Nat
  | .MATCH => p.counts_match_
  | .STAY => p.counts_stay_

/-- `PathBuffer::make_source(range, kmer, prob)`. -/
def PathBuffer.make_source (range : Range) (kmer : Nat) (prob : ℚ) : PathBuffer :=
  { length_ := 1
    consec_stays_ := 0
    event_types_ := 0
    seed_prob_ := prob
    fm_range_ := range
    kmer_ := kmer
    sa_checked_ := false
    counts_match_ := 1
    counts_stay_ := 0
    prob_sums_ := [0, prob] }

/-- `PathBuffer::type_tail()`: `event_types_ & TYPE_MASK`. -/
def PathBuffer.type_tail (p : PathBuffer) : Nat :=
  p.event_types_ &&& TYPE_MASK

/-- `PathBuffer::type_head()`:
`(event_types_ >> (TYPE_BITS*(MAX_PATH_LEN-2))) & TYPE_MASK`. -/
def PathBuffer.type_head (p : PathBuffer) (mpl : Nat) : Nat :=
  (p.event_types_ >>> (TYPE_BITS * (mpl - 2))) &&& TYPE_MASK

/-- `path_type_counts_[c]--` for a type code `c` read back from the
packed history (the decrement of the rolled-off event in `make_child`).
Codes other than 0/1 index out of bounds in C++ and cannot arise from a
well-formed history; they are mapped to a no-op. -/
def dec_count_at (c : Nat) (cm cs : Nat) : Nat × Nat :=
  if c = 0 then (cm - 1, cs) else if c = 1 then (cm, cs - 1) else (cm, cs)

/-- `PathBuffer::make_child(p, range, kmer, prob, type)` with
`MAX_PATH_LEN` passed as `mpl`.  The two `memcpy`s over `prob_sums_` are
rendered as `take`/`drop` of the tracked prefix. -/
def PathBuffer.make_child (mpl : Nat) (p : PathBuffer) (range : Range) (kmer : Nat)
    (prob : ℚ) (t : EventType) : PathBuffer :=
  let len := p.length_ + (if p.length_ ≤ mpl then 1 else 0)
  let et := TYPE_ADDS mpl t ||| (p.event_types_ >>> TYPE_BITS)
  let cstays := (p.consec_stays_ + (if t = .STAY then 1 else 0)) *
      (if t = .STAY then 1 else 0)
  let cm := p.counts_match_ + (if t = .MATCH then 1 else 0)
  let cs := p.counts_stay_ + (if t = .STAY then 1 else 0)
  if len > mpl then
    -- memcpy(prob_sums_, &p.prob_sums_[1], MAX_PATH_LEN floats);
    -- prob_sums_[MPL] = prob_sums_[MPL-1] + prob
    let copied := (p.prob_sums_.drop 1).take mpl
    let ps := copied ++ [copied.getD (mpl - 1) 0 + prob]
    let cc := dec_count_at p.type_tail cm cs
    { length_ := len
      consec_stays_ := cstays
      event_types_ := et
      seed_prob_ := (ps.getD mpl 0 - ps.getD 0 0) / (mpl : ℚ)
      fm_range_ := range
      kmer_ := kmer
      sa_checked_ := p.sa_checked_
      counts_match_ := cc.1
      counts_stay_ := cc.2
      prob_sums_ := ps }
  else
    -- memcpy(prob_sums_, p.prob_sums_, length_ floats);
    -- prob_sums_[length_] = prob_sums_[length_-1] + prob
    let copied := p.prob_sums_.take len
    let ps := copied ++ [copied.getD (len - 1) 0 + prob]
    { length_ := len
      consec_stays_ := cstays
      event_types_ := et
      seed_prob_ := ps.getD len 0 / (len : ℚ)
      fm_range_ := range
      kmer_ := kmer
      sa_checked_ := p.sa_checked_
      counts_match_ := cm
      counts_stay_ := cs
      prob_sums_ := ps }

/-- `PathBuffer::invalidate()`. -/
def PathBuffer.invalidate (p : PathBuffer) : PathBuffer :=
  { p with length_ := 0 }

/-- `PathBuffer::is_valid()`. -/
def PathBuffer.is_valid (p : PathBuffer) : Bool :=
  decide (p.length_ > 0)

/-- `PathBuffer::match_len()`. -/
def PathBuffer.match_len (p : PathBuffer) : Nat :=
  p.counts_match_

/-- The subset of `UncalledOpts` the mapper core reads (floats as `ℚ`,
`kmer_fmranges_` indexed by k-mer). -/
structure UncalledOpts where
  seed_len_ : Nat
  max_rep_copy_ : Nat
  min_rep_len_ : Nat
  max_stay_frac_ : ℚ
  min_seed_prob_ : ℚ
  max_paths_ : Nat
  max_consec_stay_ : Nat
  max_events_proc_ : Nat
  max_chunks_proc_ : Nat
  kmer_fmranges_ : List Range
  get_prob_thresh : Nat → ℚ
  get_source_prob : ℚ

/-- `PathBuffer::is_seed_valid(opts, path_ended)`; `MAX_PATH_LEN`
equals `opts.seed_len_` (set in the `Mapper` constructor). -/
def PathBuffer.is_seed_valid (p : PathBuffer) (opts : UncalledOpts)
    (path_ended : Bool) : Bool :=
  (p.fm_range_.length == 1 ||
      (path_ended && decide (p.fm_range_.length ≤ opts.max_rep_copy_) &&
        decide (p.match_len ≥ opts.min_rep_len_))) &&
  decide (p.length_ ≥ opts.seed_len_) &&
  (path_ended || p.type_head opts.seed_len_ == EventType.MATCH.toNat) &&
  (path_ended || decide ((p.counts_stay_ : ℚ) ≤ opts.max_stay_frac_ * (opts.seed_len_ : ℚ))) &&
  decide (p.seed_prob_ ≥ opts.min_seed_prob_)

/-- `operator<(PathBuffer, PathBuffer)` (mapper.cpp lines 133-138):
`fm_range_` compared first (lexicographically), `seed_prob_` as
tie-break. -/
def PathBuffer.lt (p1 p2 : PathBuffer) : Bool :=
  Range.lt p1.fm_range_ p2.fm_range_ ||
    (p1.fm_range_ == p2.fm_range_ && decide (p1.seed_prob_ < p2.seed_prob_))

/-- A seed triple `(ref_en, match_len, evt_i)` as passed to
`seed_tracker_.add_seed`. -/
abbrev Seed := Nat × Nat × Nat

/-- The k-mer pore model interface (external collaborator).  `alph_size`
is `ALPH_SIZE`, modelled from the spec (|Σ|, typically 4; declared in
the missing headers). -/
structure KmerModel where
  kmer_count : Nat
  alph_size : Nat
  event_match_prob : ℚ → Nat → ℚ
  get_neighbor : Nat → Nat → Nat

/-- The FM-index interface (external collaborator). -/
structure FMIndex where
  size : Nat
  get_neighbor : Range → Nat → Range
  sa : Nat → Nat

/-- One chunk of raw samples with its read number (the fields of `Chunk`
the core reads; modelled from the spec). -/
structure Chunk where
  samples : List ℚ
  id_ : Nat
  number_ : Nat
deriving DecidableEq, Repr

/-- The fields of `ReadBuffer` the mapper core reads and writes. -/
structure ReadBuffer where
  number_ : Nat
  num_chunks_ : Nat
  chunk_ : List ℚ
  chunk_processed_ : Bool
deriving DecidableEq, Repr

/-- The read-only collaborators of one `Mapper`: options, k-mer model,
FM-index, the tracker's decision function (`get_final().is_valid()` as a
function of the seeds added so far), and `ReadBuffer::add_chunk`
(modelled from the spec: appends a chunk to the current read and reports
whether it was added; its body is not in the sources). -/
structure Env where
  opts : UncalledOpts
  model : KmerModel
  fmi : FMIndex
  get_final_valid : List Seed → Bool
  add_chunk : ReadBuffer → Chunk → ReadBuffer × Bool

/-- `Mapper::State`. -/
inductive State where
  | INACTIVE
  | MAPPING
  | SUCCESS
  | FAILURE
deriving DecidableEq, Repr

/-- The mutable state of one `Mapper`.  `prev_paths_` holds the active
prefix `prev[0 .. prev_size_)` of the previous-generation array (so
`prev_size_` is its length); `seeds_` is the accumulated sequence of
`seed_tracker_.add_seed` calls; `read_.loc_` (written only by
`set_ref_loc` on success) is not modelled. -/
structure MapperState where
  prev_paths_ : List PathBuffer
  sources_added_ : List Bool
  event_i_ : Nat
  reset_ : Bool
  state_ : State
  seeds_ : List Seed
  read_ : ReadBuffer
  last_chunk_ : Bool
deriving DecidableEq, Repr

/-- `Mapper::update_seeds(p, path_ended)`: returns the updated path and
the list of `add_seed(ref_en, match_len, event_i - path_ended)` calls it
makes.  `fmi.size() - fmi.sa(s) + 1` and `event_i_ - path_ended` are u64
and u32 subtractions rendered as truncated `Nat` subtraction. -/
def update_seeds (env : Env) (event_i : Nat) (p : PathBuffer) (path_ended : Bool) :
    PathBuffer × List Seed :=
  if p.is_seed_valid env.opts path_ended then
    ({ p with sa_checked_ := true },
      (List.range' p.fm_range_.start_ (p.fm_range_.end_ + 1 - p.fm_range_.start_)).map
        (fun s => (env.fmi.size - env.fmi.sa s + 1, p.match_len,
          event_i - (if path_ended then 1 else 0))))
  else (p, [])

/-- `Mapper::skip_events(n)`: bumps `event_i_` and zeroes `prev_size_`
(the array keeps its contents but the whole previous generation is dead,
so the list model drops it). -/
def Mapper.skip_events (st : MapperState) (n : Nat) : MapperState :=
  { st with event_i_ := st.event_i_ + n, prev_paths_ := [] }

/-- `Mapper::end_read(number)`: `return reset_ = (read_.number_ == number)`. -/
def Mapper.end_read (st : MapperState) (number : Nat) : Bool × MapperState :=
  ((st.read_.number_ == number), { st with reset_ := (st.read_.number_ == number) })

/-- `Mapper::swap_chunk(chunk)`; the third component is the (possibly
cleared) chunk argument, since `chunk.clear()` mutates it. -/
def Mapper.swap_chunk (env : Env) (st : MapperState) (chunk : Chunk) :
    Bool × MapperState × Chunk :=
  if !st.read_.chunk_processed_ || st.reset_ then (false, st, chunk)
  else if decide (0 < env.opts.max_chunks_proc_) &&
      st.read_.num_chunks_ == env.opts.max_chunks_proc_ then
    (true, { st with state_ := .FAILURE, reset_ := true }, { chunk with samples := [] })
  else
    let r := env.add_chunk st.read_ chunk
    (r.2, { st with read_ := r.1 }, chunk)

/-- The event detector and normaliser interfaces (external stateful
collaborators of `process_chunk`), over abstract state types. -/
structure SigEnv (δ ν : Type) where
  det_add_sample : δ → ℚ → δ × Bool
  det_get_mean : δ → ℚ
  norm_add_event : ν → ℚ → ν × Bool
  norm_skip_unread : ν → Nat → ν × Nat

/-- The sample loop of `Mapper::process_chunk` (mapper.cpp lines
378-395).  The final `Bool` is false exactly on the early
`return nevents` after the normaliser rejects an event twice. -/
def Mapper.process_chunk_go {δ ν : Type} (se : SigEnv δ ν) :
    List ℚ → δ → ν → MapperState → Nat → δ × ν × MapperState × Nat × Bool
  | [], d, nv, st, nevents => (d, nv, st, nevents, true)
  | x :: rest, d, nv, st, nevents =>
    let r1 := se.det_add_sample d x
    if r1.2 then
      let mean := se.det_get_mean r1.1
      let r2 := se.norm_add_event nv mean
      if r2.2 then
        Mapper.process_chunk_go se rest r1.1 r2.1 st (nevents + 1)
      else
        let r3 := se.norm_skip_unread r2.1 nevents
        let st2 := Mapper.skip_events st r3.2
        let r4 := se.norm_add_event r3.1 mean
        if r4.2 then
          Mapper.process_chunk_go se rest r1.1 r4.1 st2 (nevents + 1)
        else
          (r1.1, r4.1, st2, nevents, false)
    else
      Mapper.process_chunk_go se rest r1.1 nv st nevents

/-- `Mapper::process_chunk()`: feeds every sample of the pending chunk
to the event detector, forwarding event means to the normaliser,
draining it via `skip_unread`/`skip_events` when full; on completion the
chunk is cleared and marked processed.  Returns the produced event
count. -/
def Mapper.process_chunk {δ ν : Type} (se : SigEnv δ ν) (d : δ) (nv : ν)
    (st : MapperState) : δ × ν × MapperState × Nat :=
  if st.read_.chunk_processed_ || st.reset_ then (d, nv, st, 0)
  else
    let r := Mapper.process_chunk_go se st.read_.chunk_ d nv st 0
    if r.2.2.2.2 then
      (r.1, r.2.1,
        { r.2.2.1 with read_ := { r.2.2.1.read_ with chunk_ := [], chunk_processed_ := true } },
        r.2.2.2.1)
    else (r.1, r.2.1, r.2.2.1, r.2.2.2.1)

/-- `opts_.kmer_fmranges_[kmer]` (out-of-range indices cannot occur:
k-mers are below `kmer_count` and the vector has `kmer_count` entries). -/
def kmer_fmrange (env : Env) (k : Nat) : Range :=
  env.opts.kmer_fmranges_.getD k { start_ := 1, end_ := 0 }

/-- Accumulator for Phase B of `add_event` (extension of the previous
generation): children built so far, remaining beam slots, seeds emitted
by dead-end `update_seeds` calls, and the beam-full stop flag. -/
structure BAcc where
  next : List PathBuffer
  cap : Nat
  seeds : List Seed
  full : Bool
deriving DecidableEq, Repr

/-- The `for (b = 0; b < ALPH_SIZE; b++)` neighbour loop of `add_event`
(mapper.cpp lines 491-523) for one parent `p`: tries a MATCH child per
base, stopping the whole extension when the beam fills.  Returns the
accumulator and the updated `child_found` flag. -/
def phaseB_bases (env : Env) (probs : List ℚ) (thresh : ℚ) (p : PathBuffer) :
    List Nat → BAcc → Bool → BAcc × Bool
  | [], acc, found => (acc, found)
  | b :: bs, acc, found =>
    let next_kmer := env.model.get_neighbor p.kmer_ b
    if decide (probs.getD next_kmer 0 < thresh) then
      phaseB_bases env probs thresh p bs acc found
    else
      let next_range := env.fmi.get_neighbor p.fm_range_ b
      if !next_range.is_valid then
        phaseB_bases env probs thresh p bs acc found
      else
        let child := PathBuffer.make_child env.opts.seed_len_ p next_range next_kmer
            (probs.getD next_kmer 0) .MATCH
        let acc2 := { acc with next := acc.next ++ [child], cap := acc.cap - 1 }
        if acc2.cap = 0 then ({ acc2 with full := true }, true)
        else phaseB_bases env probs thresh p bs acc2 true

/-- Phase B of `add_event` for one valid parent (mapper.cpp lines
453-537): STAY child, MATCH children, then the dead-end
`update_seeds(prev_path, true)` call when no child was produced and the
path was not yet SA-checked.  A beam fill directly after the STAY child
breaks out before the neighbour loop and the dead-end check, exactly as
the `break` at line 481 does.  (`update_seeds` also sets `sa_checked_`
on the parent, but the parent is discarded with the swapped-out
generation, so only its emitted seeds are kept.) -/
def phaseB_path (env : Env) (probs : List ℚ) (event_i : Nat) (p : PathBuffer)
    (acc : BAcc) : BAcc :=
  if !p.is_valid then acc
  else
    let thresh := env.opts.get_prob_thresh p.fm_range_.length
    if decide (p.consec_stays_ < env.opts.max_consec_stay_) &&
        decide (probs.getD p.kmer_ 0 ≥ thresh) then
      let child := PathBuffer.make_child env.opts.seed_len_ p p.fm_range_ p.kmer_
          (probs.getD p.kmer_ 0) .STAY
      let acc1 := { acc with next := acc.next ++ [child], cap := acc.cap - 1 }
      if acc1.cap = 0 then { acc1 with full := true }
      else (phaseB_bases env probs thresh p (List.range env.model.alph_size) acc1 true).1
    else
      let r := phaseB_bases env probs thresh p (List.range env.model.alph_size) acc false
      if !r.2 && !p.sa_checked_ then
        let u := update_seeds env event_i p true
        { r.1 with seeds := r.1.seeds ++ u.2 }
      else r.1

/-- Phase B of `add_event`: walk the previous generation in order until
it is exhausted or the beam fills. -/
def phaseB (env : Env) (probs : List ℚ) (event_i : Nat) :
    List PathBuffer → BAcc → BAcc
  | [], acc => acc
  | p :: rest, acc =>
    if acc.full then acc
    else phaseB env probs event_i rest (phaseB_path env probs event_i p acc)

/-- The sorting order `a ≼ b iff ¬ (b < a)` induced by
`operator<(PathBuffer, PathBuffer)`. -/
def pbLe (a b : PathBuffer) : Prop := ¬ PathBuffer.lt b a = true

instance : DecidableRel pbLe := fun a b => by unfold pbLe; infer_instance

/-- The `pdqsort(next_paths_.begin(), next_path)` call: pdqsort produces
some permutation of the children ordered with respect to `operator<`
(it is unstable, so the order among `<`-equivalent entries is
unspecified); insertion sort with the complementary comparator is one
such permutation. -/
def sort_paths (l : List PathBuffer) : List PathBuffer :=
  List.insertionSort pbLe l

/-- Sorting the beam preserves its size. -/
theorem sort_paths_length (l : List PathBuffer) : (sort_paths l).length = l.length :=
  List.length_insertionSort pbLe l

/-- Accumulator for Phase C of `add_event` (the sorted-children walk):
processed children `done` (in place, some invalidated), sources `srcs`
appended past the children, remaining slots, emitted seeds, the
`prev_kmer` tracker, the `unchecked_range` cursor and the
`sources_added_` flags. -/
structure CAcc where
  done : List PathBuffer
  srcs : List PathBuffer
  cap : Nat
  seeds : List Seed
  prev_kmer : Nat
  unchecked : Range
  flags : List Bool
deriving DecidableEq, Repr

/-- The leading-source block of Phase C (mapper.cpp lines 560-578): on
a fresh k-mer, raise its `sources_added_` flag, try a source covering
the k-mer range up to the current child, and reset the
`unchecked_range` cursor to the part past the current child.
`start_ - 1` is u64 subtraction rendered as truncated `Nat` subtraction
(the wrap can only occur for a k-mer range starting at 0). -/
def phaseC_lead (env : Env) (probs : List ℚ) (c : PathBuffer) (acc : CAcc) : CAcc :=
  let s := c.kmer_
  if s != acc.prev_kmer && decide (0 < acc.cap) &&
      decide (probs.getD s 0 ≥ env.opts.get_source_prob) then
    let source_range : Range :=
      { start_ := (kmer_fmrange env s).start_, end_ := c.fm_range_.start_ - 1 }
    let withFlag := { acc with flags := acc.flags.set s true }
    let withSrc :=
      if source_range.is_valid then
        { withFlag with
          srcs := withFlag.srcs ++ [PathBuffer.make_source source_range s (probs.getD s 0)]
          cap := withFlag.cap - 1 }
      else withFlag
    { withSrc with
      unchecked := { start_ := c.fm_range_.end_ + 1, end_ := (kmer_fmrange env s).end_ } }
  else acc

/-- The trailing-source block of Phase C (mapper.cpp lines 593-615): a
source out of `unchecked_range`, trimmed when the next sorted entry has
the same k-mer. -/
def phaseC_after (env : Env) (probs : List ℚ) (c : PathBuffer)
    (next : Option PathBuffer) (acc2 : CAcc) : CAcc :=
  let s := c.kmer_
  if decide (0 < acc2.cap) && decide (probs.getD s 0 ≥ env.opts.get_source_prob) then
    let trimmed :=
      match next with
      | some c2 =>
        if c2.kmer_ == s then
          ({ acc2.unchecked with end_ := c2.fm_range_.start_ - 1 },
            if decide (acc2.unchecked.start_ ≤ c2.fm_range_.end_) then
              { acc2.unchecked with start_ := c2.fm_range_.end_ + 1 }
            else acc2.unchecked)
        else (acc2.unchecked, acc2.unchecked)
      | none => (acc2.unchecked, acc2.unchecked)
    let moved := { acc2 with unchecked := trimmed.2 }
    if trimmed.1.is_valid then
      { moved with
        srcs := moved.srcs ++ [PathBuffer.make_source trimmed.1 s (probs.getD s 0)]
        cap := moved.cap - 1 }
    else moved
  else acc2

/-- Phase C of `add_event` (mapper.cpp lines 551-623): for each sorted
child, in order: leading source for a new k-mer, `prev_kmer` update,
duplicate-range removal against the next entry, trailing source, and
`update_seeds(child, false)`. -/
def phaseC_go (env : Env) (probs : List ℚ) (event_i : Nat) :
    List PathBuffer → CAcc → CAcc
  | [], acc => acc
  | c :: rest, acc =>
    let acc2 := { phaseC_lead env probs c acc with prev_kmer := c.kmer_ }
    if (match rest.head? with
        | some c2 => c.fm_range_ == c2.fm_range_
        | none => false) then
      phaseC_go env probs event_i rest { acc2 with done := acc2.done ++ [c.invalidate] }
    else
      let acc3 := phaseC_after env probs c rest.head? acc2
      let u := update_seeds env event_i c false
      phaseC_go env probs event_i rest
        { acc3 with done := acc3.done ++ [u.1], seeds := acc3.seeds ++ u.2 }

/-- Phase D of `add_event` (mapper.cpp lines 630-649) over the listed
k-mers (called with `List.range kmer_count`, the loop order): while
slots remain, append a full-range source for every k-mer whose
`sources_added_` flag is down, whose emission probability passes the
source threshold and whose k-mer range is valid; otherwise lower the
k-mer's flag for the next event. -/
def phaseD_go (env : Env) (probs : List ℚ) :
    List Nat → List PathBuffer → Nat → List Bool → List PathBuffer × Nat × List Bool
  | [], srcs, cap, flags => (srcs, cap, flags)
  | kmer :: ks, srcs, cap, flags =>
    if decide (0 < cap) then
      let next_range := kmer_fmrange env kmer
      if !(flags.getD kmer false) &&
          decide (probs.getD kmer 0 ≥ env.opts.get_source_prob) &&
          decide (0 < cap) && next_range.is_valid then
        phaseD_go env probs ks
          (srcs ++ [PathBuffer.make_source next_range kmer (probs.getD kmer 0)])
          (cap - 1) flags
      else
        phaseD_go env probs ks srcs cap (flags.set kmer false)
    else (srcs, cap, flags)

/-- `Mapper::add_event(event)`: the EventStep.  Returns `(terminated,
post-state)`.  On entry, a pending reset or an exhausted event budget
fails the read immediately.  Otherwise: Phase A emission table, Phase B
extension, Phase C sort/dedup/source injection, Phase D unrepresented
k-mer sources, promotion of `next` (children, then Phase C sources, then
Phase D sources), `event_i_` increment and the tracker poll
(`set_ref_loc`, which only fills `read_.loc_`, is not modelled). -/
def Mapper.add_event (env : Env) (st : MapperState) (event : ℚ) : Bool × MapperState :=
  if st.reset_ || decide (st.event_i_ ≥ env.opts.max_events_proc_) then
    (true, { st with reset_ := false, state_ := .FAILURE })
  else
    let probs := (List.range env.model.kmer_count).map
      (fun kmer => env.model.event_match_prob event kmer)
    let b := phaseB env probs st.event_i_ st.prev_paths_
      { next := [], cap := env.opts.max_paths_, seeds := [], full := false }
    let c := phaseC_go env probs st.event_i_ (sort_paths b.next)
      { done := [], srcs := [], cap := b.cap, seeds := [], prev_kmer := env.model.kmer_count,
        unchecked := { start_ := 1, end_ := 0 }, flags := st.sources_added_ }
    let d := phaseD_go env probs (List.range env.model.kmer_count) c.srcs c.cap c.flags
    let stOut : MapperState :=
      { st with
        prev_paths_ := c.done ++ d.1
        sources_added_ := d.2.2
        seeds_ := st.seeds_ ++ b.seeds ++ c.seeds
        event_i_ := st.event_i_ + 1 }
    if env.get_final_valid stOut.seeds_ then
      (true, { stOut with state_ := .SUCCESS })
    else
      (false, stOut)

/-- The `while (!norm_.empty())`-style driver of `map_chunk`: feed
events through `add_event` until one terminates the read (the wall-time
budget is not modelled; it only pauses the loop between events). -/
def Mapper.run_events (env : Env) : List ℚ → MapperState → Bool × MapperState
  | [], st => (false, st)
  | e :: es, st =>
    let r := Mapper.add_event env st e
    if r.1 then r else Mapper.run_events env es r.2

/-! ### Claim C1 -/

/-- C1: `is_seed_valid(opts, path_ended)` returns true iff the five
conditions hold: (1) unit FM-range, or `path_ended` with a repeat copy
and match-length allowance; (2) `length ≥ seed_len`; (3) `path_ended` or
the head event type of the packed window is MATCH; (4) `path_ended` or
the STAY count is within `max_stay_frac · seed_len`; (5) `seed_prob ≥
min_seed_prob`.  (Which end of the window `type_head` reads — oldest or
most recent — is settled by claim C3.) -/
theorem C1_is_seed_valid_iff (p : PathBuffer) (opts : UncalledOpts) (path_ended : Bool) :
    p.is_seed_valid opts path_ended = true ↔
      ((p.fm_range_.length = 1 ∨
          (path_ended = true ∧ p.fm_range_.length ≤ opts.max_rep_copy_ ∧
            p.match_len ≥ opts.min_rep_len_)) ∧
        p.length_ ≥ opts.seed_len_ ∧
        (path_ended = true ∨ p.type_head opts.seed_len_ = EventType.MATCH.toNat) ∧
        (path_ended = true ∨
          (p.path_type_counts_ EventType.STAY : ℚ) ≤
            opts.max_stay_frac_ * (opts.seed_len_ : ℚ)) ∧
        p.seed_prob_ ≥ opts.min_seed_prob_) := by
  unfold PathBuffer.is_seed_valid
  simp [PathBuffer.path_type_counts_, Bool.and_eq_true, Bool.or_eq_true,
    decide_eq_true_eq, beq_iff_eq, and_assoc]

/-! ### Claim C2 -/

/-- A concrete range reused by the concrete-input theorems below. -/
def exRange : Range := { start_ := 1, end_ := 1 }

/-- A concrete length-1 source path. -/
def exSource : PathBuffer := PathBuffer.make_source exRange 0 1

/-- `exSource` extended twice by MATCH with `MAX_PATH_LEN = 3`; its
length is 3 = MAX_PATH_LEN. -/
def exP3 : PathBuffer :=
  PathBuffer.make_child 3 (PathBuffer.make_child 3 exSource exRange 0 1 .MATCH)
    exRange 0 1 .MATCH

/-- C2 counterexample: with `MAX_PATH_LEN = 3`, extending a parent of
length 3 yields a child of length 4, not `min(3+1, 3) = 3`: the code
line `length_ = p.length_ + (p.length_ <= MAX_PATH_LEN)` caps lengths at
`MAX_PATH_LEN + 1`, not `MAX_PATH_LEN`. -/
theorem C2_counterexample :
    exP3.length_ = 3 ∧
    (PathBuffer.make_child 3 exP3 exRange 0 1 .MATCH).length_ = 4 ∧
    (PathBuffer.make_child 3 exP3 exRange 0 1 .MATCH).length_ ≠ min (exP3.length_ + 1) 3 := by
  decide

/-- C2 amended: `make_child` sets the child's length to
`min(parent.length + 1, MAX_PATH_LEN + 1)` (for any parent within that
cap), so no path ever has length greater than `MAX_PATH_LEN + 1`;
`make_source` paths have length 1. -/
theorem C2_make_child_length (mpl : Nat) (p : PathBuffer) (range : Range) (kmer : Nat)
    (prob : ℚ) (t : EventType) (h : p.length_ ≤ mpl + 1) :
    (PathBuffer.make_child mpl p range kmer prob t).length_ = min (p.length_ + 1) (mpl + 1) ∧
    (PathBuffer.make_child mpl p range kmer prob t).length_ ≤ mpl + 1 ∧
    (PathBuffer.make_source range kmer prob).length_ = 1 := by
  have hlen : (PathBuffer.make_child mpl p range kmer prob t).length_ =
      p.length_ + (if p.length_ ≤ mpl then 1 else 0) := by
    simp only [PathBuffer.make_child]
    split <;> split <;> rfl
  refine ⟨?_, ?_, rfl⟩ <;> rw [hlen] <;> split <;> omega

/-- C2 witness: the amended statement evaluated at `exP3`. -/
theorem C2_make_child_length_witness :
    exP3.length_ ≤ 3 + 1 ∧
    (PathBuffer.make_child 3 exP3 exRange 0 1 .STAY).length_ = min (exP3.length_ + 1) (3 + 1) :=
  ⟨by decide, (C2_make_child_length 3 exP3 exRange 0 1 .STAY (by decide)).1⟩

/-! ### Claim C7 -/

/-- C7: `end_read(number)` overwrites the reset flag with the result of
`read_.number_ == number` and returns it: the reset flag ends up raised
iff `number` names the current read, regardless of its prior value, and
nothing else changes. -/
theorem C7_end_read (st : MapperState) (number : Nat) :
    Mapper.end_read st number =
      ((st.read_.number_ == number), { st with reset_ := (st.read_.number_ == number) }) ∧
    ((st.read_.number_ == number) = true ↔ st.read_.number_ = number) := by
  exact ⟨rfl, beq_iff_eq⟩

/-! ### Claim C10 -/

/-- Through the `process_chunk` sample loop the mapper state is either
untouched or has passed through `skip_events`, which empties the
previous generation. -/
theorem process_chunk_go_prev {δ ν : Type} (se : SigEnv δ ν) (samples : List ℚ) :
    ∀ (d : δ) (nv : ν) (st : MapperState) (nevents : Nat),
      (Mapper.process_chunk_go se samples d nv st nevents).2.2.1 = st ∨
      (Mapper.process_chunk_go se samples d nv st nevents).2.2.1.prev_paths_ = [] := by
  induction samples with
  | nil => intro d nv st nevents; exact Or.inl rfl
  | cons x rest ih =>
    intro d nv st nevents
    simp only [Mapper.process_chunk_go]
    split
    · split
      · exact ih _ _ _ _
      · split
        · exact Or.inr ((ih _ _ _ _).elim (fun h => by rw [h]; rfl) id)
        · right; rfl
    · exact ih _ _ _ _

/-- C10: `skip_events(n)` advances `event_i_` by `n` and in addition
sets `prev_size_` to 0 — discarding every live path in the beam —
changing nothing else; consequently whenever a `process_chunk` call
comes back with a changed `event_i_` (only `skip_events` changes it
there), the previous generation it leaves behind is empty, so the next
`add_event` starts from an empty previous generation. -/
theorem C10_skip_events (st : MapperState) (n : Nat) :
    Mapper.skip_events st n =
      { st with event_i_ := st.event_i_ + n, prev_paths_ := [] } ∧
    (∀ {δ ν : Type} (se : SigEnv δ ν) (d : δ) (nv : ν) (st2 : MapperState),
      (Mapper.process_chunk se d nv st2).2.2.1.event_i_ ≠ st2.event_i_ →
      (Mapper.process_chunk se d nv st2).2.2.1.prev_paths_ = []) := by
  refine ⟨rfl, ?_⟩
  intro δ ν se d nv st2 hne
  by_cases hg : (st2.read_.chunk_processed_ || st2.reset_) = true
  · rw [Mapper.process_chunk, if_pos hg] at hne
    exact absurd rfl hne
  · rw [Mapper.process_chunk, if_neg hg] at hne ⊢
    rcases process_chunk_go_prev se st2.read_.chunk_ d nv st2 0 with h | h
    · exfalso
      apply hne
      cases hc : (Mapper.process_chunk_go se st2.read_.chunk_ d nv st2 0).2.2.2.2 <;>
        simp only [hc, Bool.false_eq_true, if_false, if_true] <;> rw [h]
    · cases hc : (Mapper.process_chunk_go se st2.read_.chunk_ d nv st2 0).2.2.2.2 <;>
        simp only [hc, Bool.false_eq_true, if_false, if_true] <;> exact h

/-- Detector/normaliser stub whose normaliser is always full: every
event goes through the `skip_unread`/`skip_events` drain. -/
def c10sig : SigEnv Unit Unit :=
  { det_add_sample := fun _ _ => ((), true)
    det_get_mean := fun _ => 0
    norm_add_event := fun _ _ => ((), false)
    norm_skip_unread := fun _ _ => ((), 3) }

/-- A mapper mid-read with one live path and one pending sample. -/
def c10st : MapperState :=
  { prev_paths_ := [exSource], sources_added_ := [false], event_i_ := 0, reset_ := false,
    state_ := .MAPPING, seeds_ := [],
    read_ := { number_ := 0, num_chunks_ := 1, chunk_ := [0], chunk_processed_ := false },
    last_chunk_ := false }

/-- C10 witness: a concrete `process_chunk` run that skips events and
indeed leaves an empty previous generation. -/
theorem C10_skip_events_witness :
    (Mapper.process_chunk c10sig () () c10st).2.2.1.event_i_ ≠ c10st.event_i_ ∧
    (Mapper.process_chunk c10sig () () c10st).2.2.1.prev_paths_ = [] :=
  ⟨by decide, (C10_skip_events c10st 0).2 c10sig () () c10st (by decide)⟩

/-! ### Claim C5 -/

/-- C5: `update_seeds(path, path_ended)` does nothing when
`is_seed_valid(opts, path_ended)` is false; otherwise it sets
`sa_checked_` (changing nothing else on the path) and emits exactly one
`add_seed(ref_en, match_len, event_i - path_ended)` call per
suffix-array index `s ∈ [fm_range.start_, fm_range.end_]`, with
`ref_en = fmi.size() - fmi.sa(s) + 1`. -/
theorem C5_update_seeds (env : Env) (event_i : Nat) (p : PathBuffer) (path_ended : Bool)
    (hsa : ∀ s, env.fmi.sa s ≤ env.fmi.size)
    (hev : path_ended = true → 1 ≤ event_i) :
    (p.is_seed_valid env.opts path_ended = false →
      update_seeds env event_i p path_ended = (p, [])) ∧
    (p.is_seed_valid env.opts path_ended = true →
      (update_seeds env event_i p path_ended).1 = { p with sa_checked_ := true } ∧
      (update_seeds env event_i p path_ended).2.length = p.fm_range_.length ∧
      (∀ r m e, (r, m, e) ∈ (update_seeds env event_i p path_ended).2 ↔
        ∃ s, p.fm_range_.start_ ≤ s ∧ s ≤ p.fm_range_.end_ ∧
          r + env.fmi.sa s = env.fmi.size + 1 ∧ m = p.match_len ∧
          e + (if path_ended then 1 else 0) = event_i)) := by
  constructor
  · intro hv
    unfold update_seeds
    rw [hv]
    simp
  · intro hv
    unfold update_seeds
    rw [hv]
    refine ⟨rfl, ?_, ?_⟩
    · simp [Range.length]
    · intro r m e
      simp only [List.mem_map, List.mem_range'_1, if_true]
      constructor
      · rintro ⟨s, ⟨hs1, hs2⟩, heq⟩
        cases heq
        refine ⟨s, hs1, by omega, by have := hsa s; omega, rfl, ?_⟩
        cases path_ended
        · simp
        · have := hev rfl
          simp only [if_true]
          omega
      · rintro ⟨s, hs1, hs2, hr, hm, he⟩
        refine ⟨s, ⟨hs1, by omega⟩, ?_⟩
        have hss := hsa s
        have h1 : env.fmi.size - env.fmi.sa s + 1 = r := by omega
        have h2 : event_i - (if path_ended then 1 else 0) = e := by
          cases path_ended
          · simp only [Bool.false_eq_true, if_false] at he ⊢
            omega
          · have := hev rfl
            simp only [if_true] at he ⊢
            omega
        rw [h1, h2, hm]

/-- Options under which `exSource` is a valid seed (`seed_len = 1`,
thresholds relaxed). -/
def c5opts : UncalledOpts :=
  { seed_len_ := 1, max_rep_copy_ := 1, min_rep_len_ := 0, max_stay_frac_ := 1,
    min_seed_prob_ := 0, max_paths_ := 4, max_consec_stay_ := 2, max_events_proc_ := 10,
    max_chunks_proc_ := 0, kmer_fmranges_ := [{ start_ := 1, end_ := 4 }],
    get_prob_thresh := fun _ => 0, get_source_prob := 0 }

/-- A small concrete environment for evaluating `update_seeds`. -/
def c5env : Env :=
  { opts := c5opts
    model := { kmer_count := 1, alph_size := 1, event_match_prob := fun _ _ => 1,
               get_neighbor := fun _ _ => 0 }
    fmi := { size := 10, get_neighbor := fun r _ => r, sa := fun _ => 2 }
    get_final_valid := fun _ => false
    add_chunk := fun rb _ => (rb, true) }

/-- C5 witness: the theorem evaluated on a concrete valid seed. -/
theorem C5_update_seeds_witness :
    exSource.is_seed_valid c5env.opts true = true ∧
    (update_seeds c5env 3 exSource true).1 = { exSource with sa_checked_ := true } :=
  ⟨by decide,
    ((C5_update_seeds c5env 3 exSource true (fun s => (by decide : (2 : Nat) ≤ 10))
      (fun _ => by decide)).2 (by decide)).1⟩

/-! ### Claim C8 -/

/-- Options with `max_chunks_proc = 0` (the chunk bound disabled). -/
def c8opts : UncalledOpts :=
  { seed_len_ := 2, max_rep_copy_ := 1, min_rep_len_ := 1, max_stay_frac_ := 1/2,
    min_seed_prob_ := 0, max_paths_ := 2, max_consec_stay_ := 1, max_events_proc_ := 5,
    max_chunks_proc_ := 0, kmer_fmranges_ := [{ start_ := 1, end_ := 4 }],
    get_prob_thresh := fun _ => 0, get_source_prob := 0 }

/-- A concrete environment whose `add_chunk` appends the chunk. -/
def c8env : Env :=
  { opts := c8opts
    model := { kmer_count := 1, alph_size := 1, event_match_prob := fun _ _ => 1,
               get_neighbor := fun _ _ => 0 }
    fmi := { size := 10, get_neighbor := fun r _ => r, sa := fun s => s }
    get_final_valid := fun _ => false
    add_chunk := fun rb ch =>
      ({ rb with
          num_chunks_ := rb.num_chunks_ + 1
          chunk_ := ch.samples
          chunk_processed_ := false }, true) }

/-- A mapper whose current chunk is processed, no reset pending, one
chunk already consumed. -/
def c8st : MapperState :=
  { prev_paths_ := [], sources_added_ := [false], event_i_ := 0, reset_ := false,
    state_ := .MAPPING, seeds_ := [],
    read_ := { number_ := 7, num_chunks_ := 1, chunk_ := [], chunk_processed_ := true },
    last_chunk_ := false }

/-- The next incoming chunk of read 7. -/
def c8chunk : Chunk := { samples := [1], id_ := 0, number_ := 7 }

/-- C8 counterexample: with `max_chunks_proc = 0` and a read already
holding one chunk, accepting another chunk would exceed
`max_chunks_proc` on the claim's arithmetic reading (1 + 1 > 0), yet
`swap_chunk` neither fails the read nor raises reset: the FAILURE
branch is guarded by `max_chunks_proc_ > 0` (0 disables the bound). -/
theorem C8_counterexample :
    c8st.read_.chunk_processed_ = true ∧ c8st.reset_ = false ∧
    c8st.read_.num_chunks_ + 1 > c8env.opts.max_chunks_proc_ ∧
    (Mapper.swap_chunk c8env c8st c8chunk).2.1.state_ ≠ State.FAILURE ∧
    (Mapper.swap_chunk c8env c8st c8chunk).2.1.reset_ = false := by
  decide

/-- C8 amended: `swap_chunk` returns false and changes no state when
the current chunk is unprocessed or a reset is pending; when
`max_chunks_proc > 0` and the read already holds exactly
`max_chunks_proc` chunks it transitions to FAILURE, raises reset,
clears the chunk and returns true; otherwise (including
`max_chunks_proc = 0`, which disables the bound) it hands the chunk to
`read_.add_chunk` and returns whether it was added. -/
theorem C8_swap_chunk (env : Env) (st : MapperState) (chunk : Chunk) :
    (st.read_.chunk_processed_ = false ∨ st.reset_ = true →
      Mapper.swap_chunk env st chunk = (false, st, chunk)) ∧
    (st.read_.chunk_processed_ = true → st.reset_ = false →
      (0 < env.opts.max_chunks_proc_ → st.read_.num_chunks_ = env.opts.max_chunks_proc_ →
        Mapper.swap_chunk env st chunk =
          (true, { st with state_ := .FAILURE, reset_ := true },
            { chunk with samples := [] })) ∧
      (env.opts.max_chunks_proc_ = 0 ∨ st.read_.num_chunks_ ≠ env.opts.max_chunks_proc_ →
        Mapper.swap_chunk env st chunk =
          ((env.add_chunk st.read_ chunk).2,
            { st with read_ := (env.add_chunk st.read_ chunk).1 }, chunk))) := by
  refine ⟨?_, ?_⟩
  · rintro (h | h) <;> · unfold Mapper.swap_chunk; rw [if_pos (by simp [h])]
  · intro h1 h2
    have hg : (!st.read_.chunk_processed_ || st.reset_) = false := by simp [h1, h2]
    constructor
    · intro h3 h4
      have hc : (decide (0 < env.opts.max_chunks_proc_) &&
          (st.read_.num_chunks_ == env.opts.max_chunks_proc_)) = true := by
        simp [h3, h4]
      unfold Mapper.swap_chunk
      rw [if_neg (by simp [hg]), if_pos hc]
    · intro h5
      have hc : (decide (0 < env.opts.max_chunks_proc_) &&
          (st.read_.num_chunks_ == env.opts.max_chunks_proc_)) = false := by
        rcases h5 with h | h <;> simp [h]
      unfold Mapper.swap_chunk
      rw [if_neg (by simp [hg]), if_neg (by simp [hc])]

/-- The C8 options with the chunk bound enabled at 1. -/
def c8opts2 : UncalledOpts := { c8opts with max_chunks_proc_ := 1 }

/-- The C8 environment with the chunk bound enabled at 1. -/
def c8env2 : Env := { c8env with opts := c8opts2 }

/-- C8 witness: the amended FAILURE branch evaluated concretely
(read holds 1 chunk, `max_chunks_proc = 1`). -/
theorem C8_swap_chunk_witness :
    Mapper.swap_chunk c8env2 c8st c8chunk =
      (true, { c8st with state_ := .FAILURE, reset_ := true },
        { c8chunk with samples := [] }) :=
  ((C8_swap_chunk c8env2 c8st c8chunk).2 rfl rfl).1 (by decide) (by decide)

/-! ### Claim C6 -/

/-- The guard of `add_event`: a pending reset or an exhausted event
budget fails the read immediately, leaving everything but the reset
flag and the state untouched (in particular, no path expansion). -/
theorem add_event_guard (env : Env) (st : MapperState) (event : ℚ)
    (h : st.reset_ = true ∨ env.opts.max_events_proc_ ≤ st.event_i_) :
    Mapper.add_event env st event =
      (true, { st with reset_ := false, state_ := .FAILURE }) := by
  unfold Mapper.add_event
  rw [if_pos]
  rcases h with h | h
  · simp [h]
  · simp only [Bool.or_eq_true, decide_eq_true_eq, ge_iff_le]
    exact Or.inr h

/-- A non-guarded `add_event` with a silent tracker terminates nothing,
keeps the reset flag down and the state unchanged, and advances
`event_i_` by exactly one. -/
theorem add_event_not_terminated (env : Env) (st : MapperState) (event : ℚ)
    (H : ∀ l, env.get_final_valid l = false)
    (hr : st.reset_ = false) (hi : st.event_i_ < env.opts.max_events_proc_) :
    (Mapper.add_event env st event).1 = false ∧
    (Mapper.add_event env st event).2.reset_ = false ∧
    (Mapper.add_event env st event).2.event_i_ = st.event_i_ + 1 ∧
    (Mapper.add_event env st event).2.state_ = st.state_ := by
  unfold Mapper.add_event
  rw [if_neg (by simp [hr, decide_eq_true_eq]; omega)]
  simp [H, hr]

/-- Draining events through `add_event` with a silent tracker from a
fresh counter: once the budget is exhausted the next call terminates
the read with FAILURE. -/
theorem run_events_failure (env : Env) (H : ∀ l, env.get_final_valid l = false) :
    ∀ (events : List ℚ) (st : MapperState), st.reset_ = false →
      st.event_i_ + events.length = env.opts.max_events_proc_ + 1 →
      1 ≤ events.length →
      (Mapper.run_events env events st).1 = true ∧
      (Mapper.run_events env events st).2.state_ = .FAILURE := by
  intro events
  induction events with
  | nil => intro st _ h hlen; simp at hlen
  | cons e es ih =>
    intro st hr hlen _
    by_cases hi : st.event_i_ < env.opts.max_events_proc_
    · obtain ⟨h1, h2, h3, _⟩ := add_event_not_terminated env st e H hr hi
      simp only [Mapper.run_events, h1, Bool.false_eq_true, if_false]
      apply ih _ h2
      · rw [h3]
        simp only [List.length_cons] at hlen
        omega
      · simp only [List.length_cons] at hlen
        omega
    · have hg := add_event_guard env st e (Or.inr (by omega))
      simp only [Mapper.run_events, hg]
      exact ⟨rfl, rfl⟩

/-- C6: on entry to `add_event`, a raised reset flag or
`event_i ≥ max_events_proc` transitions the mapper to FAILURE and
returns terminated without expanding any paths (the whole state is
unchanged except the reset flag, which is consumed, and `state_`); a
non-guarded call advances `event_i_` by one; consequently after
`max_events_proc` events without a tracker hit, the state is FAILURE. -/
theorem C6_add_event_budget (env : Env) (st : MapperState) (event : ℚ) :
    (st.reset_ = true ∨ env.opts.max_events_proc_ ≤ st.event_i_ →
      Mapper.add_event env st event =
        (true, { st with reset_ := false, state_ := .FAILURE })) ∧
    ((∀ l, env.get_final_valid l = false) → st.reset_ = false →
      st.event_i_ < env.opts.max_events_proc_ →
      (Mapper.add_event env st event).1 = false ∧
      (Mapper.add_event env st event).2.event_i_ = st.event_i_ + 1) ∧
    (∀ (events : List ℚ), (∀ l, env.get_final_valid l = false) →
      st.reset_ = false → st.event_i_ = 0 →
      events.length = env.opts.max_events_proc_ + 1 →
      (Mapper.run_events env events st).1 = true ∧
      (Mapper.run_events env events st).2.state_ = .FAILURE) := by
  refine ⟨fun h => add_event_guard env st event h, ?_, ?_⟩
  · intro H hr hi
    obtain ⟨h1, _, h3, _⟩ := add_event_not_terminated env st event H hr hi
    exact ⟨h1, h3⟩
  · intro events H hr h0 hlen
    exact run_events_failure env H events st hr (by omega) (by omega)

/-- A trivial environment: no k-mers, a silent tracker, a budget of two
events. -/
def c6opts : UncalledOpts :=
  { seed_len_ := 2, max_rep_copy_ := 1, min_rep_len_ := 1, max_stay_frac_ := 1,
    min_seed_prob_ := 0, max_paths_ := 2, max_consec_stay_ := 1, max_events_proc_ := 2,
    max_chunks_proc_ := 0, kmer_fmranges_ := [],
    get_prob_thresh := fun _ => 0, get_source_prob := 0 }

/-- The C6 environment assembled from `c6opts`. -/
def c6env : Env :=
  { opts := c6opts
    model := { kmer_count := 0, alph_size := 0, event_match_prob := fun _ _ => 1,
               get_neighbor := fun _ _ => 0 }
    fmi := { size := 10, get_neighbor := fun r _ => r, sa := fun s => s }
    get_final_valid := fun _ => false
    add_chunk := fun rb _ => (rb, true) }

/-- A fresh mapping state (event counter at zero). -/
def c6st : MapperState :=
  { prev_paths_ := [], sources_added_ := [], event_i_ := 0, reset_ := false,
    state_ := .MAPPING, seeds_ := [],
    read_ := { number_ := 1, num_chunks_ := 1, chunk_ := [], chunk_processed_ := true },
    last_chunk_ := false }

/-- C6 witness: draining three events against a budget of two fails the
read. -/
theorem C6_add_event_budget_witness :
    (Mapper.run_events c6env [0, 0, 0] c6st).1 = true ∧
    (Mapper.run_events c6env [0, 0, 0] c6st).2.state_ = .FAILURE :=
  (C6_add_event_budget c6env c6st 0).2.2 [0, 0, 0] (fun _ => rfl) rfl rfl (by decide)

/-! ### Claim C3 -/

/-- One packed-type slot of an `event_types_` word: slot `i` holds the
bits `[i*TYPE_BITS, (i+1)*TYPE_BITS)`; slot 0 is the least-significant
field (the code's `type_tail`), slot `MAX_PATH_LEN-2` the
most-significant occupied field (the code's `type_head`). -/
def typeSlot (v i : Nat) : Nat := (v >>> (i * TYPE_BITS)) &&& TYPE_MASK

theorem typeSlot_eq (v i : Nat) : typeSlot v i = v / 2 ^ (i * 2) % 2 ^ 2 := by
  unfold typeSlot
  rw [show TYPE_MASK = 2 ^ 2 - 1 from rfl, show TYPE_BITS = 2 from rfl,
    Nat.shiftRight_eq_div_pow, Nat.and_pow_two_sub_one_eq_mod]

/-- Bitwise-or of a left-shifted value onto a value that fits below the
shift is addition. -/
theorem lor_shiftLeft_add (a b s : Nat) (hb : b < 2 ^ s) :
    (a <<< s) ||| b = 2 ^ s * a + b := by
  apply Nat.eq_of_testBit_eq
  intro j
  rw [Nat.testBit_or, Nat.testBit_shiftLeft, Nat.testBit_mul_pow_two_add a hb j]
  by_cases h : j < s
  · simp [h, Nat.not_le.2 h]
  · have hbj : b.testBit j = false :=
      Nat.testBit_lt_two_pow
        (lt_of_lt_of_le hb (Nat.pow_le_pow_right (by norm_num) (Nat.le_of_not_lt h)))
    simp [h, Nat.le_of_not_lt h, hbj]

/-- The child's packed history (both `make_child` branches build it the
same way). -/
theorem make_child_event_types (mpl : Nat) (p : PathBuffer) (range : Range)
    (kmer : Nat) (prob : ℚ) (t : EventType) :
    (PathBuffer.make_child mpl p range kmer prob t).event_types_ =
      TYPE_ADDS mpl t ||| (p.event_types_ >>> TYPE_BITS) := by
  simp only [PathBuffer.make_child]
  split <;> split <;> rfl

/-- `exSource` extended by STAY with `MAX_PATH_LEN = 3` (retained
extension history, in chronological order: [STAY]). -/
def c3p1 : PathBuffer := PathBuffer.make_child 3 exSource exRange 0 1 .STAY

/-- `c3p1` extended by MATCH (retained history, chronological:
[STAY, MATCH]: the most recent type is MATCH, the oldest retained is
STAY). -/
def c3p2 : PathBuffer := PathBuffer.make_child 3 c3p1 exRange 0 1 .MATCH

/-- C3 counterexample: on `c3p2` (most recent type MATCH, oldest
retained STAY), `type_head()` returns MATCH — the most recent type, not
the oldest retained — and `type_tail()` returns STAY — the oldest
retained, not the most recent; and on `c3p1` the newly inserted STAY
does not land in the least-significant (tail) field as the claim's "new
tail inserted at the low end" requires. -/
theorem C3_counterexample :
    c3p2.type_head 3 = EventType.MATCH.toNat ∧
    c3p2.type_tail = EventType.STAY.toNat ∧
    c3p1.type_tail ≠ EventType.STAY.toNat := by
  decide

/-- C3 amended: `event_types_` stores the MOST RECENT event type in the
most-significant occupied field (the head) and the OLDEST retained type
in the least-significant field (the tail); on every `make_child`
extension the parent's window is shifted down by `TYPE_BITS` — dropping
the oldest type from the LOW end — and the new type is inserted in the
HIGH slot, so `type_head()` returns the most recent type and
`type_tail()` (slot 0) the oldest retained one. -/
theorem C3_event_types_window (mpl : Nat) (hmpl : 2 ≤ mpl) (p : PathBuffer)
    (range : Range) (kmer : Nat) (prob : ℚ) (t : EventType)
    (hwf : p.event_types_ < 2 ^ ((mpl - 1) * TYPE_BITS)) :
    (PathBuffer.make_child mpl p range kmer prob t).type_head mpl = t.toNat ∧
    (∀ i, i < mpl - 2 →
      typeSlot (PathBuffer.make_child mpl p range kmer prob t).event_types_ i =
        typeSlot p.event_types_ (i + 1)) ∧
    (PathBuffer.make_child mpl p range kmer prob t).type_tail =
      typeSlot (PathBuffer.make_child mpl p range kmer prob t).event_types_ 0 ∧
    (PathBuffer.make_child mpl p range kmer prob t).event_types_ <
      2 ^ ((mpl - 1) * TYPE_BITS) := by
  have hTB : TYPE_BITS = 2 := rfl
  have het := make_child_event_types mpl p range kmer prob t
  have ha : t.toNat < 2 ^ 2 := by cases t <;> decide
  have hd : p.event_types_ >>> 2 < 2 ^ ((mpl - 2) * 2) := by
    rw [Nat.shiftRight_eq_div_pow]
    rw [Nat.div_lt_iff_lt_mul (by positivity)]
    calc p.event_types_ < 2 ^ ((mpl - 1) * TYPE_BITS) := hwf
    _ = 2 ^ ((mpl - 2) * 2) * 2 ^ 2 := by
        rw [← pow_add, hTB]
        congr 1
        omega
  have hval : (PathBuffer.make_child mpl p range kmer prob t).event_types_ =
      2 ^ ((mpl - 2) * 2) * t.toNat + p.event_types_ >>> 2 := by
    rw [het]
    unfold TYPE_ADDS
    rw [hTB]
    exact lor_shiftLeft_add _ _ _ hd
  refine ⟨?_, ?_, rfl, ?_⟩
  · unfold PathBuffer.type_head
    rw [hval, hTB, show TYPE_MASK = 2 ^ 2 - 1 from rfl,
      Nat.shiftRight_eq_div_pow, Nat.and_pow_two_sub_one_eq_mod,
      show 2 * (mpl - 2) = (mpl - 2) * 2 from Nat.mul_comm ..,
      Nat.mul_add_div (by positivity),
      Nat.div_eq_of_lt hd, Nat.add_zero, Nat.mod_eq_of_lt ha]
  · intro i hi
    rw [typeSlot_eq, typeSlot_eq, hval]
    have hs : (mpl - 2) * 2 = i * 2 + (2 + (mpl - 2 - i - 1) * 2) := by omega
    rw [hs, pow_add, Nat.mul_assoc, Nat.mul_add_div (by positivity),
      Nat.mul_comm (2 ^ (2 + (mpl - 2 - i - 1) * 2)) t.toNat, pow_add,
      ← Nat.mul_assoc, Nat.mul_comm t.toNat (2 ^ 2), Nat.mul_assoc,
      Nat.mul_add_mod, Nat.shiftRight_eq_div_pow,
      Nat.div_div_eq_div_mul, ← pow_add,
      show 2 + i * 2 = (i + 1) * 2 by omega]
  · rw [hval]
    have h2 : 0 < 2 ^ ((mpl - 2) * 2) := by positivity
    have hsum : 2 ^ ((mpl - 1) * TYPE_BITS) = 2 ^ ((mpl - 2) * 2) * 2 ^ 2 := by
      rw [← pow_add, hTB]
      congr 1
      omega
    rw [hsum]
    cases t <;> simp only [EventType.toNat] <;> omega

/-- C3 witness: the amended statement evaluated at the concrete path
`c3p1` extended by MATCH. -/
theorem C3_event_types_window_witness :
    c3p1.event_types_ < 2 ^ ((3 - 1) * TYPE_BITS) ∧
    c3p2.type_head 3 = EventType.MATCH.toNat :=
  ⟨by decide, (C3_event_types_window 3 (by decide) c3p1 exRange 0 1 .MATCH (by decide)).1⟩

/-! ### Claim C9 -/

theorem getD_set_ne (l : List Bool) (i k : Nat) (h : k ≠ i) (a d : Bool) :
    (l.set i a).getD k d = l.getD k d := by
  simp [List.getD_eq_getElem?_getD, List.getElem?_set_ne (by omega : i ≠ k)]

theorem getD_set_self_false (l : List Bool) (i : Nat) :
    (l.set i false).getD i false = false := by
  rcases lt_or_ge i l.length with h | h
  · simp [List.getD_eq_getElem?_getD, List.getElem?_set_self (by simpa using h)]
  · rw [List.set_eq_of_length_le h]
    simp [List.getD_eq_getElem?_getD, List.getElem?_eq_none (by simpa using h)]

/-- Phase D never raises a flag: a k-mer whose flag is down keeps it
down. -/
theorem phaseD_go_flags_false (env : Env) (probs : List ℚ) :
    ∀ (ks : List Nat) (srcs : List PathBuffer) (cap : Nat) (flags : List Bool) (k : Nat),
      flags.getD k false = false →
      ((phaseD_go env probs ks srcs cap flags).2.2).getD k false = false := by
  intro ks
  induction ks with
  | nil => intro srcs cap flags k hk; exact hk
  | cons km ks ih =>
    intro srcs cap flags k hk
    simp only [phaseD_go]
    split
    · split
      · exact ih _ _ _ _ hk
      · apply ih
        rcases eq_or_ne k km with rfl | hne
        · exact getD_set_self_false flags k
        · rw [getD_set_ne flags km k hne]
          exact hk
    · exact hk

/-- The Phase D appending condition for one k-mer, as a function of the
flags at loop entry. -/
def phaseD_pred (env : Env) (probs : List ℚ) (flags : List Bool) (k : Nat) : Bool :=
  !(flags.getD k false) && decide (probs.getD k 0 ≥ env.opts.get_source_prob) &&
    (kmer_fmrange env k).is_valid

/-- Phase D appends exactly the sources for the qualifying k-mers, in
order, truncated to the remaining beam slots. -/
theorem phaseD_go_appended (env : Env) (probs : List ℚ) :
    ∀ (ks : List Nat) (srcs : List PathBuffer) (cap : Nat) (flags : List Bool),
      ks.Nodup →
      (phaseD_go env probs ks srcs cap flags).1 =
        srcs ++ ((ks.filter (phaseD_pred env probs flags)).take cap).map
          (fun k => PathBuffer.make_source (kmer_fmrange env k) k (probs.getD k 0)) := by
  intro ks
  induction ks with
  | nil => intro srcs cap flags _; simp [phaseD_go]
  | cons km ks ih =>
    intro srcs cap flags hnd
    have hnd2 := hnd.of_cons
    have hkm : km ∉ ks := (List.nodup_cons.mp hnd).1
    simp only [phaseD_go]
    split
    · rename_i hcap
      have hcap' : 0 < cap := of_decide_eq_true hcap
      rw [show decide (0 < cap) = true by simpa using hcap', Bool.and_true]
      rw [show (!(flags.getD km false) &&
          decide (probs.getD km 0 ≥ env.opts.get_source_prob) &&
          (kmer_fmrange env km).is_valid) = phaseD_pred env probs flags km from rfl]
      by_cases hp : phaseD_pred env probs flags km = true
      · rw [if_pos hp, ih _ _ _ hnd2]
        rw [show List.filter (phaseD_pred env probs flags) (km :: ks) =
            km :: List.filter (phaseD_pred env probs flags) ks from by
          simp [List.filter_cons, hp]]
        obtain ⟨cap', rfl⟩ : ∃ c, cap = c + 1 := ⟨cap - 1, by omega⟩
        simp [List.take_succ_cons]
      · rw [if_neg hp, ih _ _ _ hnd2]
        have hfilt : List.filter (phaseD_pred env probs (flags.set km false)) ks =
            List.filter (phaseD_pred env probs flags) ks := by
          apply List.filter_congr
          intro x hx
          have hne : x ≠ km := fun h => hkm (h ▸ hx)
          simp only [phaseD_pred]
          rw [getD_set_ne flags km x hne]
        rw [hfilt, show List.filter (phaseD_pred env probs flags) (km :: ks) =
            List.filter (phaseD_pred env probs flags) ks from by
          simp [List.filter_cons, hp]]
    · rename_i hcap
      have : cap = 0 := by
        simp only [decide_eq_true_eq, not_lt, Nat.le_zero] at hcap
        exact hcap
      subst this
      simp

/-- When Phase D's loop is not cut short by a full beam (slots remain
at exit), every listed k-mer's flag ends down. -/
theorem phaseD_go_reset (env : Env) (probs : List ℚ) :
    ∀ (ks : List Nat) (srcs : List PathBuffer) (cap : Nat) (flags : List Bool),
      0 < (phaseD_go env probs ks srcs cap flags).2.1 →
      ∀ k ∈ ks, ((phaseD_go env probs ks srcs cap flags).2.2).getD k false = false := by
  intro ks
  induction ks with
  | nil => intro srcs cap flags _ k hk; simp at hk
  | cons km ks ih =>
    intro srcs cap flags hpos k hk
    simp only [phaseD_go] at hpos ⊢
    by_cases hc : 0 < cap
    · rw [if_pos (by simpa using hc)] at hpos ⊢
      by_cases hb : (!(flags.getD km false) &&
          decide (probs.getD km 0 ≥ env.opts.get_source_prob) &&
          decide (0 < cap) && (kmer_fmrange env km).is_valid) = true
      · rw [if_pos hb] at hpos ⊢
        rcases List.mem_cons.mp hk with rfl | hk2
        · apply phaseD_go_flags_false
          have hext := hb
          simp only [Bool.and_eq_true, Bool.not_eq_true'] at hext
          exact hext.1.1.1
        · exact ih _ _ _ hpos k hk2
      · rw [if_neg hb] at hpos ⊢
        rcases List.mem_cons.mp hk with rfl | hk2
        · apply phaseD_go_flags_false
          exact getD_set_self_false flags k
        · exact ih _ _ _ hpos k hk2
    · rw [if_neg (by simpa using hc)] at hpos ⊢
      exact absurd hpos (by simpa using hc)

/-- Beam-slot accounting for Phase D: every appended source consumes
one slot. -/
theorem phaseD_go_cap (env : Env) (probs : List ℚ) :
    ∀ (ks : List Nat) (srcs : List PathBuffer) (cap : Nat) (flags : List Bool),
      (phaseD_go env probs ks srcs cap flags).1.length +
        (phaseD_go env probs ks srcs cap flags).2.1 = srcs.length + cap := by
  intro ks
  induction ks with
  | nil => intro srcs cap flags; rfl
  | cons km ks ih =>
    intro srcs cap flags
    simp only [phaseD_go]
    split
    · rename_i hcap
      have hc : 0 < cap := of_decide_eq_true hcap
      split
      · rw [ih]
        simp only [List.length_append, List.length_cons, List.length_nil]
        omega
      · exact ih _ _ _
    · rfl

/-- Beam-slot accounting for the Phase B neighbour loop: as long as the
full flag is down there is a free slot, and children plus free slots
are conserved. -/
theorem phaseB_bases_inv (env : Env) (probs : List ℚ) (thresh : ℚ) (p : PathBuffer) :
    ∀ (bs : List Nat) (acc : BAcc) (found : Bool),
      acc.full = false → 0 < acc.cap →
      ((phaseB_bases env probs thresh p bs acc found).1.next.length +
          (phaseB_bases env probs thresh p bs acc found).1.cap =
        acc.next.length + acc.cap) ∧
      ((phaseB_bases env probs thresh p bs acc found).1.full = false →
        0 < (phaseB_bases env probs thresh p bs acc found).1.cap) := by
  intro bs
  induction bs with
  | nil => intro acc found hf hc; exact ⟨rfl, fun _ => hc⟩
  | cons b bs ih =>
    intro acc found hf hc
    simp only [phaseB_bases]
    split
    · exact ih _ _ hf hc
    · split
      · exact ih _ _ hf hc
      · split
        · constructor
          · simp only [List.length_append, List.length_cons, List.length_nil]
            omega
          · intro hfull
            simp at hfull
        · rename_i hne
          have hcap2 : 0 < acc.cap - 1 := by omega
          have h := ih { acc with
              next := acc.next ++ [PathBuffer.make_child env.opts.seed_len_ p
                (env.fmi.get_neighbor p.fm_range_ b)
                (env.model.get_neighbor p.kmer_ b)
                (probs.getD (env.model.get_neighbor p.kmer_ b) 0) .MATCH]
              cap := acc.cap - 1 } true hf hcap2
          constructor
          · rw [h.1]
            simp only [List.length_append, List.length_cons, List.length_nil]
            omega
          · exact h.2

/-- Beam-slot accounting for Phase B on one parent path. -/
theorem phaseB_path_inv (env : Env) (probs : List ℚ) (event_i : Nat) (p : PathBuffer)
    (acc : BAcc) (hf : acc.full = false) (hc : 0 < acc.cap) :
    ((phaseB_path env probs event_i p acc).next.length +
        (phaseB_path env probs event_i p acc).cap = acc.next.length + acc.cap) ∧
    ((phaseB_path env probs event_i p acc).full = false →
      0 < (phaseB_path env probs event_i p acc).cap) := by
  simp only [phaseB_path]
  split
  · exact ⟨rfl, fun _ => hc⟩
  · split
    · split
      · constructor
        · simp only [List.length_append, List.length_cons, List.length_nil]
          omega
        · intro hfull
          simp at hfull
      · rename_i hne
        have hcap2 : 0 < acc.cap - 1 := by omega
        have hres := phaseB_bases_inv env probs
          (env.opts.get_prob_thresh p.fm_range_.length) p
          (List.range env.model.alph_size)
          { acc with
            next := acc.next ++ [PathBuffer.make_child env.opts.seed_len_ p
              p.fm_range_ p.kmer_ (probs.getD p.kmer_ 0) .STAY]
            cap := acc.cap - 1 } true hf hcap2
        constructor
        · rw [hres.1]
          simp only [List.length_append, List.length_cons, List.length_nil]
          omega
        · exact hres.2
    · have hres := phaseB_bases_inv env probs
        (env.opts.get_prob_thresh p.fm_range_.length) p
        (List.range env.model.alph_size) acc false hf hc
      split
      · exact hres
      · exact hres

/-- Beam-slot accounting for the whole of Phase B. -/
theorem phaseB_inv (env : Env) (probs : List ℚ) (event_i : Nat) :
    ∀ (ps : List PathBuffer) (acc : BAcc), (acc.full = false → 0 < acc.cap) →
      ((phaseB env probs event_i ps acc).next.length +
          (phaseB env probs event_i ps acc).cap = acc.next.length + acc.cap) ∧
      ((phaseB env probs event_i ps acc).full = false →
        0 < (phaseB env probs event_i ps acc).cap) := by
  intro ps
  induction ps with
  | nil => exact fun acc h => ⟨rfl, h⟩
  | cons p ps ih =>
    intro acc h
    simp only [phaseB]
    split
    · exact ⟨rfl, h⟩
    · rename_i hfull
      have hf : acc.full = false := by simpa using hfull
      have hp := phaseB_path_inv env probs event_i p acc hf (h hf)
      have hrec := ih (phaseB_path env probs event_i p acc) hp.2
      exact ⟨by rw [hrec.1, hp.1], hrec.2⟩

/-- The leading-source block leaves the processed children in place. -/
theorem phaseC_lead_done (env : Env) (probs : List ℚ) (c : PathBuffer) (acc : CAcc) :
    (phaseC_lead env probs c acc).done = acc.done := by
  simp only [phaseC_lead]
  split
  · split <;> rfl
  · rfl

/-- The leading-source block emits no seeds. -/
theorem phaseC_lead_seeds (env : Env) (probs : List ℚ) (c : PathBuffer) (acc : CAcc) :
    (phaseC_lead env probs c acc).seeds = acc.seeds := by
  simp only [phaseC_lead]
  split
  · split <;> rfl
  · rfl

/-- The leading-source block conserves sources plus free slots. -/
theorem phaseC_lead_cap (env : Env) (probs : List ℚ) (c : PathBuffer) (acc : CAcc) :
    (phaseC_lead env probs c acc).srcs.length + (phaseC_lead env probs c acc).cap =
      acc.srcs.length + acc.cap := by
  simp only [phaseC_lead]
  split
  · rename_i hcond
    have hcap : 0 < acc.cap := of_decide_eq_true
      (by simp only [Bool.and_eq_true] at hcond; exact hcond.1.2)
    split
    · simp only [List.length_append, List.length_cons, List.length_nil]
      omega
    · rfl
  · rfl

/-- The trailing-source block leaves the processed children in place. -/
theorem phaseC_after_done (env : Env) (probs : List ℚ) (c : PathBuffer)
    (next : Option PathBuffer) (acc2 : CAcc) :
    (phaseC_after env probs c next acc2).done = acc2.done := by
  simp only [phaseC_after]
  split
  · split <;> rfl
  · rfl

/-- The trailing-source block emits no seeds. -/
theorem phaseC_after_seeds (env : Env) (probs : List ℚ) (c : PathBuffer)
    (next : Option PathBuffer) (acc2 : CAcc) :
    (phaseC_after env probs c next acc2).seeds = acc2.seeds := by
  simp only [phaseC_after]
  split
  · split <;> rfl
  · rfl

/-- The trailing-source block conserves sources plus free slots. -/
theorem phaseC_after_cap (env : Env) (probs : List ℚ) (c : PathBuffer)
    (next : Option PathBuffer) (acc2 : CAcc) :
    (phaseC_after env probs c next acc2).srcs.length +
        (phaseC_after env probs c next acc2).cap =
      acc2.srcs.length + acc2.cap := by
  simp only [phaseC_after]
  split
  · rename_i hcond
    have hcap : 0 < acc2.cap := of_decide_eq_true
      (by simp only [Bool.and_eq_true] at hcond; exact hcond.1)
    split
    · simp only [List.length_append, List.length_cons, List.length_nil]
      omega
    · rfl
  · rfl

/-- Phase C accounting: every child is processed exactly once (in
place) and every injected source consumes one slot. -/
theorem phaseC_go_inv_len (env : Env) (probs : List ℚ) (event_i : Nat) :
    ∀ (cs : List PathBuffer) (acc : CAcc),
      ((phaseC_go env probs event_i cs acc).done.length =
        acc.done.length + cs.length) ∧
      ((phaseC_go env probs event_i cs acc).srcs.length +
          (phaseC_go env probs event_i cs acc).cap =
        acc.srcs.length + acc.cap) := by
  intro cs
  induction cs with
  | nil =>
    intro acc
    have h : phaseC_go env probs event_i [] acc = acc := rfl
    rw [h]
    exact ⟨by simp, rfl⟩
  | cons c rest ih =>
    intro acc
    simp only [phaseC_go]
    split
    · constructor
      · rw [(ih _).1]
        simp only [phaseC_lead_done, List.length_append, List.length_cons, List.length_nil]
        omega
      · rw [(ih _).2]
        simp only [phaseC_lead_cap]
    · constructor
      · rw [(ih _).1]
        simp only [phaseC_after_done, phaseC_lead_done, List.length_append, List.length_cons,
          List.length_nil]
        omega
      · rw [(ih _).2]
        simp only [phaseC_after_cap, phaseC_lead_cap]

/-- Options for the C9 counterexample run: seed emission disabled by a
large `seed_len`, two beam slots, permissive thresholds. -/
def c9opts : UncalledOpts :=
  { seed_len_ := 5, max_rep_copy_ := 1, min_rep_len_ := 1, max_stay_frac_ := 1,
    min_seed_prob_ := 0, max_paths_ := 2, max_consec_stay_ := 3, max_events_proc_ := 100,
    max_chunks_proc_ := 0, kmer_fmranges_ := [{ start_ := 1, end_ := 9 }],
    get_prob_thresh := fun _ => 0, get_source_prob := 0 }

/-- Environment for the C9 counterexample: one k-mer whose FM extension
is always invalid, so only STAY children arise. -/
def c9env : Env :=
  { opts := c9opts
    model := { kmer_count := 1, alph_size := 1, event_match_prob := fun _ _ => 1,
               get_neighbor := fun _ _ => 0 }
    fmi := { size := 10, get_neighbor := fun _ _ => { start_ := 1, end_ := 0 },
             sa := fun s => s }
    get_final_valid := fun _ => false
    add_chunk := fun rb _ => (rb, true) }

/-- One live path of k-mer 0 over FM-range [5,6]. -/
def c9path : PathBuffer := PathBuffer.make_source { start_ := 5, end_ := 6 } 0 1

/-- The mapper before the C9 counterexample event: one live path, all
`sources_added_` flags down. -/
def c9st : MapperState :=
  { prev_paths_ := [c9path], sources_added_ := [false], event_i_ := 1, reset_ := false,
    state_ := .MAPPING, seeds_ := [],
    read_ := { number_ := 1, num_chunks_ := 1, chunk_ := [], chunk_processed_ := true },
    last_chunk_ := false }

/-- C9 counterexample: in this event the Phase C leading source raises
`sources_added_[0]` and fills the beam, so Phase D's loop exits at once
and never resets the flag: the next EventStep starts with
`sources_added_[0]` still raised, contradicting "at the start of every
EventStep all `sources_added` flags are false / every flag set during
one event is reset for the next event". -/
theorem C9_counterexample :
    c9st.sources_added_ = [false] ∧
    (Mapper.add_event c9env c9st 1).1 = false ∧
    (Mapper.add_event c9env c9st 1).2.sources_added_ = [true] := by
  decide

/-- C9 amended: Phase D appends a full-range source exactly for the
k-mers taken in order whose `sources_added_` flag is down, whose
emission probability meets the source threshold and whose k-mer range
is valid, for as long as slots remain; it resets the flags only of the
k-mers its loop visits, so all flags are guaranteed down at the next
EventStep only when the beam did not fill (slots remain at Phase D
exit, equivalently the promoted generation is smaller than
`max_paths`). -/
theorem C9_phaseD_sources (env : Env) (probs : List ℚ) :
    (∀ (ks : List Nat) (srcs : List PathBuffer) (cap : Nat) (flags : List Bool),
      ks.Nodup →
      (phaseD_go env probs ks srcs cap flags).1 =
        srcs ++ ((ks.filter (phaseD_pred env probs flags)).take cap).map
          (fun k => PathBuffer.make_source (kmer_fmrange env k) k (probs.getD k 0))) ∧
    (∀ (ks : List Nat) (srcs : List PathBuffer) (cap : Nat) (flags : List Bool),
      0 < (phaseD_go env probs ks srcs cap flags).2.1 →
      ∀ k ∈ ks, ((phaseD_go env probs ks srcs cap flags).2.2).getD k false = false) ∧
    (∀ (st : MapperState) (event : ℚ), st.reset_ = false →
      st.event_i_ < env.opts.max_events_proc_ → 0 < env.opts.max_paths_ →
      (Mapper.add_event env st event).2.prev_paths_.length < env.opts.max_paths_ →
      ∀ k, k < env.model.kmer_count →
        ((Mapper.add_event env st event).2.sources_added_).getD k false = false) := by
  refine ⟨phaseD_go_appended env probs, phaseD_go_reset env probs, ?_⟩
  intro st event hr hi hmax hlen k hkc
  have hdec : decide (st.event_i_ ≥ env.opts.max_events_proc_) = false :=
    decide_eq_false (by omega)
  simp only [Mapper.add_event, hr, hdec, Bool.false_or, Bool.false_eq_true, if_false]
    at hlen ⊢
  generalize hprobs :
    List.map (fun kmer => env.model.event_match_prob event kmer)
      (List.range env.model.kmer_count) = probs2 at hlen ⊢
  generalize hB : phaseB env probs2 st.event_i_ st.prev_paths_
    { next := [], cap := env.opts.max_paths_, seeds := [], full := false } = B at hlen ⊢
  generalize hC : phaseC_go env probs2 st.event_i_ (sort_paths B.next)
    { done := [], srcs := [], cap := B.cap, seeds := [], prev_kmer := env.model.kmer_count,
      unchecked := { start_ := 1, end_ := 0 }, flags := st.sources_added_ } = C at hlen ⊢
  generalize hD : phaseD_go env probs2 (List.range env.model.kmer_count)
    C.srcs C.cap C.flags = D at hlen ⊢
  have h1 : B.next.length + B.cap = env.opts.max_paths_ := by
    rw [← hB]
    simpa using (phaseB_inv env probs2 st.event_i_ st.prev_paths_
      { next := [], cap := env.opts.max_paths_, seeds := [], full := false }
      (fun _ => hmax)).1
  have h2 := phaseC_go_inv_len env probs2 st.event_i_ (sort_paths B.next)
    { done := [], srcs := [], cap := B.cap, seeds := [], prev_kmer := env.model.kmer_count,
      unchecked := { start_ := 1, end_ := 0 }, flags := st.sources_added_ }
  rw [hC] at h2
  simp only [List.length_nil] at h2
  obtain ⟨h2a, h2b⟩ := h2
  have hsortlen : (sort_paths B.next).length = B.next.length :=
    sort_paths_length B.next
  have h3 := phaseD_go_cap env probs2 (List.range env.model.kmer_count) C.srcs C.cap C.flags
  rw [hD] at h3
  have hres := phaseD_go_reset env probs2 (List.range env.model.kmer_count)
    C.srcs C.cap C.flags
  rw [hD] at hres
  split at hlen <;> rename_i hfin
  · rw [if_pos hfin]
    simp only [List.length_append] at hlen
    exact hres (by omega) k (List.mem_range.mpr hkc)
  · rw [if_neg hfin]
    simp only [List.length_append] at hlen
    exact hres (by omega) k (List.mem_range.mpr hkc)

/-- Options for the C9 witness: the one k-mer sits below the source
threshold, one beam slot. -/
def c9wopts : UncalledOpts :=
  { seed_len_ := 5, max_rep_copy_ := 1, min_rep_len_ := 1, max_stay_frac_ := 1,
    min_seed_prob_ := 0, max_paths_ := 1, max_consec_stay_ := 3, max_events_proc_ := 100,
    max_chunks_proc_ := 0, kmer_fmranges_ := [{ start_ := 1, end_ := 9 }],
    get_prob_thresh := fun _ => 0, get_source_prob := 5 }

/-- Environment for the C9 witness. -/
def c9wenv : Env :=
  { opts := c9wopts
    model := { kmer_count := 1, alph_size := 1, event_match_prob := fun _ _ => 1,
               get_neighbor := fun _ _ => 0 }
    fmi := { size := 10, get_neighbor := fun _ _ => { start_ := 1, end_ := 0 },
             sa := fun s => s }
    get_final_valid := fun _ => false
    add_chunk := fun rb _ => (rb, true) }

/-- A mapper with an empty beam and a stale raised flag. -/
def c9wst : MapperState :=
  { prev_paths_ := [], sources_added_ := [true], event_i_ := 1, reset_ := false,
    state_ := .MAPPING, seeds_ := [],
    read_ := { number_ := 1, num_chunks_ := 1, chunk_ := [], chunk_processed_ := true },
    last_chunk_ := false }

/-- C9 witness: the amended flag-reset guarantee evaluated concretely —
the beam did not fill, so the stale raised flag is cleared. -/
theorem C9_phaseD_sources_witness :
    (Mapper.add_event c9wenv c9wst 0).2.prev_paths_.length < c9wenv.opts.max_paths_ ∧
    ((Mapper.add_event c9wenv c9wst 0).2.sources_added_).getD 0 false = false :=
  ⟨by decide, (C9_phaseD_sources c9wenv []).2.2 c9wst 0 rfl (by decide) (by decide)
    (by decide) 0 (by decide)⟩

/-! ### Claim C4 -/

/-- The strict lexicographic order on ranges, as a proposition. -/
def rangeLtP (a b : Range) : Prop :=
  a.start_ < b.start_ ∨ (a.start_ = b.start_ ∧ a.end_ < b.end_)

/-- The reflexive closure of `rangeLtP`. -/
def rangeLeP (a b : Range) : Prop := rangeLtP a b ∨ a = b

theorem Range.lt_iff (a b : Range) : Range.lt a b = true ↔ rangeLtP a b := by
  simp [Range.lt, rangeLtP]

theorem rangeLtP_trichot (a b : Range) : rangeLtP a b ∨ a = b ∨ rangeLtP b a := by
  rcases a with ⟨as, ae⟩
  rcases b with ⟨bs, be⟩
  simp only [rangeLtP, Range.mk.injEq]
  omega

theorem rangeLtP_asymm {a b : Range} (h : rangeLtP a b) (h2 : rangeLtP b a) : False := by
  rcases a with ⟨as, ae⟩
  rcases b with ⟨bs, be⟩
  simp only [rangeLtP] at h h2
  omega

theorem rangeLtP_irrefl {a : Range} (h : rangeLtP a a) : False := rangeLtP_asymm h h

theorem rangeLtP_trans {a b c : Range} (h : rangeLtP a b) (h2 : rangeLtP b c) :
    rangeLtP a c := by
  rcases a with ⟨as, ae⟩
  rcases b with ⟨bs, be⟩
  rcases c with ⟨cs, ce⟩
  simp only [rangeLtP] at h h2 ⊢
  omega

theorem rangeLeP_trans {a b c : Range} (h : rangeLeP a b) (h2 : rangeLeP b c) :
    rangeLeP a c := by
  rcases h with h | rfl
  · rcases h2 with h2 | rfl
    · exact Or.inl (rangeLtP_trans h h2)
    · exact Or.inl h
  · exact h2

theorem rangeLeP_start_le {a b : Range} (h : rangeLeP a b) : a.start_ ≤ b.start_ := by
  rcases h with h | rfl
  · rcases h with h | ⟨h, _⟩ <;> omega
  · exact le_refl _

theorem rangeLeP_antisymm {a b : Range} (h : rangeLeP a b) (h2 : rangeLeP b a) : a = b := by
  rcases h with h | rfl
  · rcases h2 with h2 | rfl
    · exact absurd h (fun hh => rangeLtP_asymm hh h2)
    · rfl
  · rfl

theorem rangeLtP_of_le_of_ne {a b : Range} (h : rangeLeP a b) (hne : a ≠ b) :
    rangeLtP a b := by
  rcases h with h | rfl
  · exact h
  · exact absurd rfl hne

theorem pb_lt_iff (p q : PathBuffer) :
    PathBuffer.lt p q = true ↔
      (rangeLtP p.fm_range_ q.fm_range_ ∨
        (p.fm_range_ = q.fm_range_ ∧ p.seed_prob_ < q.seed_prob_)) := by
  simp [PathBuffer.lt, Range.lt_iff, beq_iff_eq]

theorem pb_le_iff (a b : PathBuffer) :
    pbLe a b ↔
      (rangeLtP a.fm_range_ b.fm_range_ ∨
        (a.fm_range_ = b.fm_range_ ∧ a.seed_prob_ ≤ b.seed_prob_)) := by
  unfold pbLe
  rw [pb_lt_iff]
  constructor
  · intro h
    rcases rangeLtP_trichot a.fm_range_ b.fm_range_ with h1 | h1 | h1
    · exact Or.inl h1
    · refine Or.inr ⟨h1, le_of_not_lt (fun hlt => h (Or.inr ⟨h1.symm, hlt⟩))⟩
    · exact absurd (Or.inl h1) h
  · rintro (h | ⟨he, hp⟩) hc
    · rcases hc with hc | ⟨he', hp'⟩
      · exact rangeLtP_asymm h hc
      · rw [he'] at h
        exact rangeLtP_irrefl h
    · rcases hc with hc | ⟨he', hp'⟩
      · rw [he] at hc
        exact rangeLtP_irrefl hc
      · exact absurd hp' (not_lt.mpr hp)

theorem pbLe_range_le {a b : PathBuffer} (h : pbLe a b) :
    rangeLeP a.fm_range_ b.fm_range_ := by
  rw [pb_le_iff] at h
  rcases h with h | ⟨he, _⟩
  · exact Or.inl h
  · exact Or.inr he

theorem pbLe_prob_le {a b : PathBuffer} (h : pbLe a b)
    (he : a.fm_range_ = b.fm_range_) : a.seed_prob_ ≤ b.seed_prob_ := by
  rw [pb_le_iff] at h
  rcases h with h | ⟨_, hp⟩
  · rw [he] at h
    exact absurd h rangeLtP_irrefl
  · exact hp

instance : IsTrans PathBuffer pbLe where
  trans a b c hab hbc := by
    rw [pb_le_iff] at hab hbc ⊢
    rcases hab with h1 | ⟨e1, p1⟩ <;> rcases hbc with h2 | ⟨e2, p2⟩
    · exact Or.inl (rangeLtP_trans h1 h2)
    · exact Or.inl (e2 ▸ h1)
    · exact Or.inl (e1 ▸ h2)
    · exact Or.inr ⟨e1.trans e2, le_trans p1 p2⟩

instance : IsTotal PathBuffer pbLe where
  total a b := by
    rw [pb_le_iff, pb_le_iff]
    rcases rangeLtP_trichot a.fm_range_ b.fm_range_ with h | h | h
    · exact Or.inl (Or.inl h)
    · rcases le_total a.seed_prob_ b.seed_prob_ with hp | hp
      · exact Or.inl (Or.inr ⟨h, hp⟩)
      · exact Or.inr (Or.inr ⟨h.symm, hp⟩)
    · exact Or.inr (Or.inl h)

/-- The sorted beam is ordered by `pbLe` and is a permutation of the
input. -/
theorem sort_paths_spec (l : List PathBuffer) :
    List.Pairwise pbLe (sort_paths l) ∧ (sort_paths l).Perm l :=
  ⟨List.sorted_insertionSort pbLe l, List.perm_insertionSort pbLe l⟩

/-- Two valid ranges contained in disjoint intervals differ. -/
theorem range_ne_of_disjoint {A B ra rb : Range}
    (hd : A.end_ < B.start_ ∨ B.end_ < A.start_)
    (hra : ra.is_valid = true) (hrb : rb.is_valid = true)
    (ha1 : A.start_ ≤ ra.start_) (ha2 : ra.end_ ≤ A.end_)
    (hb1 : B.start_ ≤ rb.start_) (hb2 : rb.end_ ≤ B.end_) : ra ≠ rb := by
  intro h
  subst h
  simp only [Range.is_valid, decide_eq_true_eq] at hra hrb
  omega

/-- No range of one k-mer interval can sit lexicographically between
two ranges of a different, disjoint k-mer interval. -/
theorem no_interleave {A B ra rb rc : Range}
    (hd : A.end_ < B.start_ ∨ B.end_ < A.start_)
    (_hra : ra.is_valid = true) (hrb : rb.is_valid = true) (hrc : rc.is_valid = true)
    (ha1 : A.start_ ≤ ra.start_) (_ha2 : ra.end_ ≤ A.end_)
    (hb1 : B.start_ ≤ rb.start_) (hb2 : rb.end_ ≤ B.end_)
    (_hc1 : A.start_ ≤ rc.start_) (hc2 : rc.end_ ≤ A.end_)
    (h1 : rangeLeP ra rb) (h2 : rangeLeP rb rc) : False := by
  have k1 := rangeLeP_start_le h1
  have k2 := rangeLeP_start_le h2
  simp only [Range.is_valid, decide_eq_true_eq] at hrb hrc
  omega

/-- `update_seeds` only flips `sa_checked_` on the path. -/
theorem update_seeds_fst_fields (env : Env) (event_i : Nat) (p : PathBuffer) (b : Bool) :
    (update_seeds env event_i p b).1.fm_range_ = p.fm_range_ ∧
    (update_seeds env event_i p b).1.seed_prob_ = p.seed_prob_ ∧
    (update_seeds env event_i p b).1.kmer_ = p.kmer_ ∧
    (update_seeds env event_i p b).1.is_valid = p.is_valid := by
  unfold update_seeds
  split <;> exact ⟨rfl, rfl, rfl, rfl⟩

/-- `invalidate` keeps the range, k-mer and probability and zeroes the
length. -/
theorem invalidate_fields (p : PathBuffer) :
    p.invalidate.fm_range_ = p.fm_range_ ∧
    p.invalidate.seed_prob_ = p.seed_prob_ ∧
    p.invalidate.kmer_ = p.kmer_ ∧
    p.invalidate.is_valid = false :=
  ⟨rfl, rfl, rfl, rfl⟩

theorem phaseC_lead_prev (env : Env) (probs : List ℚ) (c : PathBuffer) (acc : CAcc) :
    (phaseC_lead env probs c acc).prev_kmer = acc.prev_kmer := by
  simp only [phaseC_lead]
  split
  · split <;> rfl
  · rfl

theorem phaseC_after_prev (env : Env) (probs : List ℚ) (c : PathBuffer)
    (next : Option PathBuffer) (acc2 : CAcc) :
    (phaseC_after env probs c next acc2).prev_kmer = acc2.prev_kmer := by
  simp only [phaseC_after]
  split
  · split <;> rfl
  · rfl

theorem phaseC_after_cap_le (env : Env) (probs : List ℚ) (c : PathBuffer)
    (next : Option PathBuffer) (acc2 : CAcc) :
    (phaseC_after env probs c next acc2).cap ≤ acc2.cap := by
  simp only [phaseC_after]
  split
  · split
    · exact Nat.sub_le _ _
    · exact le_refl _
  · exact le_refl _

theorem phaseC_lead_neg (env : Env) (probs : List ℚ) (c : PathBuffer) (acc : CAcc)
    (h : (c.kmer_ != acc.prev_kmer && decide (0 < acc.cap) &&
      decide (probs.getD c.kmer_ 0 ≥ env.opts.get_source_prob)) = false) :
    phaseC_lead env probs c acc = acc := by
  simp only [phaseC_lead, h, Bool.false_eq_true, if_false]

theorem phaseC_lead_pos_valid (env : Env) (probs : List ℚ) (c : PathBuffer) (acc : CAcc)
    (h : (c.kmer_ != acc.prev_kmer && decide (0 < acc.cap) &&
      decide (probs.getD c.kmer_ 0 ≥ env.opts.get_source_prob)) = true)
    (hv : (Range.mk (kmer_fmrange env c.kmer_).start_ (c.fm_range_.start_ - 1)).is_valid
      = true) :
    phaseC_lead env probs c acc =
      { acc with
        flags := acc.flags.set c.kmer_ true
        srcs := acc.srcs ++ [PathBuffer.make_source
          { start_ := (kmer_fmrange env c.kmer_).start_, end_ := c.fm_range_.start_ - 1 }
          c.kmer_ (probs.getD c.kmer_ 0)]
        cap := acc.cap - 1
        unchecked := { start_ := c.fm_range_.end_ + 1, end_ := (kmer_fmrange env c.kmer_).end_ } } := by
  simp only [phaseC_lead, h, if_true, hv]

theorem phaseC_lead_pos_invalid (env : Env) (probs : List ℚ) (c : PathBuffer) (acc : CAcc)
    (h : (c.kmer_ != acc.prev_kmer && decide (0 < acc.cap) &&
      decide (probs.getD c.kmer_ 0 ≥ env.opts.get_source_prob)) = true)
    (hv : (Range.mk (kmer_fmrange env c.kmer_).start_ (c.fm_range_.start_ - 1)).is_valid
      = false) :
    phaseC_lead env probs c acc =
      { acc with
        flags := acc.flags.set c.kmer_ true
        unchecked := { start_ := c.fm_range_.end_ + 1, end_ := (kmer_fmrange env c.kmer_).end_ } } := by
  simp only [phaseC_lead, h, if_true, hv, Bool.false_eq_true, if_false]

theorem phaseC_after_neg (env : Env) (probs : List ℚ) (c : PathBuffer)
    (next : Option PathBuffer) (acc2 : CAcc)
    (h : (decide (0 < acc2.cap) &&
      decide (probs.getD c.kmer_ 0 ≥ env.opts.get_source_prob)) = false) :
    phaseC_after env probs c next acc2 = acc2 := by
  simp only [phaseC_after, h, Bool.false_eq_true, if_false]

theorem phaseC_after_pos_none_valid (env : Env) (probs : List ℚ) (c : PathBuffer)
    (acc2 : CAcc)
    (h : (decide (0 < acc2.cap) &&
      decide (probs.getD c.kmer_ 0 ≥ env.opts.get_source_prob)) = true)
    (hv : acc2.unchecked.is_valid = true) :
    phaseC_after env probs c none acc2 =
      { acc2 with
        srcs := acc2.srcs ++
          [PathBuffer.make_source acc2.unchecked c.kmer_ (probs.getD c.kmer_ 0)]
        cap := acc2.cap - 1 } := by
  simp only [phaseC_after, h, if_true, hv]

theorem phaseC_after_pos_none_invalid (env : Env) (probs : List ℚ) (c : PathBuffer)
    (acc2 : CAcc)
    (h : (decide (0 < acc2.cap) &&
      decide (probs.getD c.kmer_ 0 ≥ env.opts.get_source_prob)) = true)
    (hv : acc2.unchecked.is_valid = false) :
    phaseC_after env probs c none acc2 = acc2 := by
  simp only [phaseC_after, h, if_true, hv, Bool.false_eq_true, if_false]

theorem phaseC_after_pos_other_valid (env : Env) (probs : List ℚ) (c c2 : PathBuffer)
    (acc2 : CAcc)
    (h : (decide (0 < acc2.cap) &&
      decide (probs.getD c.kmer_ 0 ≥ env.opts.get_source_prob)) = true)
    (hk : (c2.kmer_ == c.kmer_) = false)
    (hv : acc2.unchecked.is_valid = true) :
    phaseC_after env probs c (some c2) acc2 =
      { acc2 with
        srcs := acc2.srcs ++
          [PathBuffer.make_source acc2.unchecked c.kmer_ (probs.getD c.kmer_ 0)]
        cap := acc2.cap - 1 } := by
  simp only [phaseC_after, h, if_true, hk, Bool.false_eq_true, if_false, hv]

theorem phaseC_after_pos_other_invalid (env : Env) (probs : List ℚ) (c c2 : PathBuffer)
    (acc2 : CAcc)
    (h : (decide (0 < acc2.cap) &&
      decide (probs.getD c.kmer_ 0 ≥ env.opts.get_source_prob)) = true)
    (hk : (c2.kmer_ == c.kmer_) = false)
    (hv : acc2.unchecked.is_valid = false) :
    phaseC_after env probs c (some c2) acc2 = acc2 := by
  simp only [phaseC_after, h, if_true, hk, Bool.false_eq_true, if_false, hv]

theorem phaseC_after_pos_same_valid (env : Env) (probs : List ℚ) (c c2 : PathBuffer)
    (acc2 : CAcc)
    (h : (decide (0 < acc2.cap) &&
      decide (probs.getD c.kmer_ 0 ≥ env.opts.get_source_prob)) = true)
    (hk : (c2.kmer_ == c.kmer_) = true)
    (hc2v : c2.fm_range_.start_ ≤ c2.fm_range_.end_)
    (hv : (Range.mk acc2.unchecked.start_ (c2.fm_range_.start_ - 1)).is_valid = true) :
    phaseC_after env probs c (some c2) acc2 =
      { acc2 with
        unchecked := { acc2.unchecked with start_ := c2.fm_range_.end_ + 1 }
        srcs := acc2.srcs ++
          [PathBuffer.make_source { acc2.unchecked with end_ := c2.fm_range_.start_ - 1 }
            c.kmer_ (probs.getD c.kmer_ 0)]
        cap := acc2.cap - 1 } := by
  have htrim : decide (acc2.unchecked.start_ ≤ c2.fm_range_.end_) = true := by
    simp only [Range.is_valid, decide_eq_true_eq] at hv ⊢
    omega
  simp only [phaseC_after, h, if_true, hk, htrim, hv]

/-- The FM-index contract: distinct k-mers have disjoint SA intervals. -/
def FMDisjoint (env : Env) : Prop :=
  ∀ k1, k1 < env.model.kmer_count → ∀ k2, k2 < env.model.kmer_count → k1 ≠ k2 →
    (kmer_fmrange env k1).end_ < (kmer_fmrange env k2).start_ ∨
    (kmer_fmrange env k2).end_ < (kmer_fmrange env k1).start_

/-- The FM-index contract: SA intervals start past the sentinel row 0. -/
def FMPositive (env : Env) : Prop :=
  ∀ k, k < env.model.kmer_count → 1 ≤ (kmer_fmrange env k).start_

/-- A path whose range sits inside its k-mer's SA interval. -/
def GoodPath (env : Env) (p : PathBuffer) : Prop :=
  p.fm_range_.is_valid = true ∧ p.kmer_ < env.model.kmer_count ∧
  (kmer_fmrange env p.kmer_).start_ ≤ p.fm_range_.start_ ∧
  p.fm_range_.end_ ≤ (kmer_fmrange env p.kmer_).end_

/-- A Phase B child entering Phase C: a good path that is also alive. -/
def GoodChild (env : Env) (p : PathBuffer) : Prop :=
  GoodPath env p ∧ p.is_valid = true

instance (env : Env) (p : PathBuffer) : Decidable (GoodPath env p) := by
  unfold GoodPath; infer_instance

instance (env : Env) (p : PathBuffer) : Decidable (GoodChild env p) := by
  unfold GoodChild; infer_instance

theorem make_source_fields (range : Range) (kmer : Nat) (prob : ℚ) :
    (PathBuffer.make_source range kmer prob).fm_range_ = range ∧
    (PathBuffer.make_source range kmer prob).kmer_ = kmer ∧
    (PathBuffer.make_source range kmer prob).seed_prob_ = prob ∧
    (PathBuffer.make_source range kmer prob).is_valid = true :=
  ⟨rfl, rfl, rfl, rfl⟩

/-- Under interval disjointness, equal ranges force equal k-mers. -/
theorem kmer_eq_of_range_eq {env : Env} (HFdis : FMDisjoint env) {p q : PathBuffer}
    (h1 : GoodPath env p) (h2 : GoodPath env q)
    (he : p.fm_range_ = q.fm_range_) : p.kmer_ = q.kmer_ := by
  by_contra hne
  obtain ⟨hv1, hk1, hs1, he1⟩ := h1
  obtain ⟨hv2, hk2, hs2, he2⟩ := h2
  rcases HFdis p.kmer_ hk1 q.kmer_ hk2 hne with hd | hd <;>
    · rw [he] at hs1 he1
      simp only [Range.is_valid, decide_eq_true_eq] at hv2
      omega

/-- A processed path and a pending path with the same k-mer sandwich
every intermediate child into that same k-mer. -/
theorem done_kmer_eq {env : Env} (HFdis : FMDisjoint env) {x c y : PathBuffer}
    (hx : GoodPath env x) (hc : GoodPath env c) (hy : GoodPath env y)
    (hxc : rangeLeP x.fm_range_ c.fm_range_) (hcy : rangeLeP c.fm_range_ y.fm_range_)
    (hk : x.kmer_ = y.kmer_) : x.kmer_ = c.kmer_ := by
  by_cases hkc : x.kmer_ = c.kmer_
  · exact hkc
  · obtain ⟨hv1, hk1, hs1, he1⟩ := hx
    obtain ⟨hv2, hk2, hs2, he2⟩ := hc
    obtain ⟨hv3, hk3, hs3, he3⟩ := hy
    rw [← hk] at hs3 he3
    exact absurd (no_interleave (HFdis x.kmer_ hk1 c.kmer_ hk2 hkc)
      hv1 hv2 hv3 hs1 he1 hs2 he2 hs3 he3 hxc hcy) (fun h => h)

/-- If the next sorted entry has a different k-mer from the current
child, no later entry returns to the current k-mer. -/
theorem no_later_kmer {env : Env} (HFdis : FMDisjoint env) {c c2 : PathBuffer}
    {rest2 : List PathBuffer}
    (hc : GoodPath env c) (h2 : GoodPath env c2) (hr : ∀ x ∈ rest2, GoodPath env x)
    (hsort : List.Pairwise pbLe (c :: c2 :: rest2))
    (hk : c2.kmer_ ≠ c.kmer_) : ∀ y ∈ c2 :: rest2, y.kmer_ ≠ c.kmer_ := by
  intro y hy hyk
  rcases List.mem_cons.mp hy with rfl | hy2
  · exact hk hyk
  · obtain ⟨hcall, hrest⟩ := List.pairwise_cons.mp hsort
    obtain ⟨h2all, _⟩ := List.pairwise_cons.mp hrest
    obtain ⟨hv1, hk1, hs1, he1⟩ := hc
    obtain ⟨hv2, hk2, hs2, he2⟩ := h2
    obtain ⟨hv3, hk3, hs3, he3⟩ := hr y hy2
    rw [hyk] at hs3 he3
    exact no_interleave (HFdis c.kmer_ hk1 c2.kmer_ hk2 (fun h => hk h.symm))
      hv1 hv2 hv3 hs1 he1 hs2 he2 hs3 he3
      (pbLe_range_le (hcall c2 (List.mem_cons_self _ _)))
      (pbLe_range_le (h2all y hy2))

/-- If the next sorted entry has a different range from the current
child, no later entry shares the current child's range. -/
theorem no_later_range {c c2 : PathBuffer} {rest2 : List PathBuffer}
    (hsort : List.Pairwise pbLe (c :: c2 :: rest2))
    (hne : c.fm_range_ ≠ c2.fm_range_) : ∀ y ∈ c2 :: rest2, y.fm_range_ ≠ c.fm_range_ := by
  intro y hy hyr
  rcases List.mem_cons.mp hy with rfl | hy2
  · exact hne hyr.symm
  · obtain ⟨hcall, hrest⟩ := List.pairwise_cons.mp hsort
    obtain ⟨h2all, _⟩ := List.pairwise_cons.mp hrest
    have h1 : rangeLeP c.fm_range_ c2.fm_range_ :=
      pbLe_range_le (hcall c2 (List.mem_cons_self _ _))
    have h2 : rangeLeP c2.fm_range_ c.fm_range_ := by
      rw [← hyr]
      exact pbLe_range_le (h2all y hy2)
    exact hne (rangeLeP_antisymm h1 h2)

theorem phaseC_after_pos_same_invalid (env : Env) (probs : List ℚ) (c c2 : PathBuffer)
    (acc2 : CAcc)
    (h : (decide (0 < acc2.cap) &&
      decide (probs.getD c.kmer_ 0 ≥ env.opts.get_source_prob)) = true)
    (hk : (c2.kmer_ == c.kmer_) = true)
    (hv : (Range.mk acc2.unchecked.start_ (c2.fm_range_.start_ - 1)).is_valid = false) :
    phaseC_after env probs c (some c2) acc2 =
      { acc2 with
        unchecked := if decide (acc2.unchecked.start_ ≤ c2.fm_range_.end_) = true then
            { acc2.unchecked with start_ := c2.fm_range_.end_ + 1 }
          else acc2.unchecked } := by
  simp only [phaseC_after, h, if_true, hk, hv, Bool.false_eq_true, if_false]

/-- The loop invariant of the Phase C walk: `rest` is the still-unprocessed
suffix of the sorted children, `acc` the accumulator before consuming it. -/
structure CInv (env : Env) (probs : List ℚ) (rest : List PathBuffer) (acc : CAcc) :
    Prop where
  srt : List.Pairwise pbLe rest
  rc : ∀ c ∈ rest, GoodChild env c
  d1 : ∀ w ∈ acc.done, GoodPath env w
  d2 : List.Pairwise (fun a b => a.is_valid = true → b.is_valid = true →
    rangeLtP a.fm_range_ b.fm_range_) acc.done
  d3 : ∀ w ∈ acc.done, w.is_valid = true → ∀ x ∈ rest, rangeLtP w.fm_range_ x.fm_range_
  d3e : ∀ w ∈ acc.done, ∀ x ∈ rest, rangeLeP w.fm_range_ x.fm_range_
  d4 : ∀ w ∈ acc.done, ∀ x ∈ rest, w.fm_range_ = x.fm_range_ →
    w.seed_prob_ ≤ x.seed_prob_
  s1 : ∀ src ∈ acc.srcs, GoodPath env src
  s2 : List.Pairwise (fun a b => a.fm_range_ ≠ b.fm_range_) acc.srcs
  s3 : ∀ src ∈ acc.srcs, ∀ x ∈ acc.done, src.fm_range_ ≠ x.fm_range_
  s4 : ∀ src ∈ acc.srcs, ∀ x ∈ rest, x.kmer_ = src.kmer_ →
    src.fm_range_.end_ < x.fm_range_.start_
  sk : ∀ src ∈ acc.srcs, ∃ x ∈ acc.done, x.kmer_ = src.kmer_
  bk : ∀ x ∈ acc.done, ∀ y ∈ rest, x.kmer_ = y.kmer_ → x.kmer_ = acc.prev_kmer
  pk0 : acc.done = [] → env.model.kmer_count ≤ acc.prev_kmer
  pk1 : acc.done ≠ [] → ∃ x ∈ acc.done, x.kmer_ = acc.prev_kmer
  wit : ∀ y ∈ acc.done,
    (∃ w2 ∈ acc.done, w2.is_valid = true ∧ w2.fm_range_ = y.fm_range_ ∧
      (∀ z ∈ acc.done, z.fm_range_ = y.fm_range_ → z.seed_prob_ ≤ w2.seed_prob_) ∧
      (∀ x ∈ rest, x.fm_range_ ≠ y.fm_range_)) ∨
    (∃ x ∈ rest, x.fm_range_ = y.fm_range_)
  unc : ∀ s0, acc.prev_kmer = s0 → s0 < env.model.kmer_count →
    env.opts.get_source_prob ≤ probs.getD s0 0 → 0 < acc.cap →
    (∃ x ∈ acc.done, x.kmer_ = s0) → (∃ y ∈ rest, y.kmer_ = s0) →
    acc.unchecked.end_ = (kmer_fmrange env s0).end_ ∧
    (kmer_fmrange env s0).start_ ≤ acc.unchecked.start_ ∧
    (∀ x ∈ acc.done, x.kmer_ = s0 → x.fm_range_.end_ < acc.unchecked.start_) ∧
    (∀ src ∈ acc.srcs, src.kmer_ = s0 → src.fm_range_.end_ < acc.unchecked.start_) ∧
    (∀ x, rest.head? = some x → x.kmer_ = s0 →
      x.fm_range_.end_ < acc.unchecked.start_)

/-- The mid-iteration state of Phase C: the current child `c` has gone
through the leading-source block and `prev_kmer` is updated, `rest` is
the suffix after `c`. -/
structure CMid (env : Env) (probs : List ℚ) (c : PathBuffer) (rest : List PathBuffer)
    (acc2 : CAcc) : Prop where
  srt : List.Pairwise pbLe (c :: rest)
  rc : ∀ x ∈ c :: rest, GoodChild env x
  d1 : ∀ w ∈ acc2.done, GoodPath env w
  d2 : List.Pairwise (fun a b => a.is_valid = true → b.is_valid = true →
    rangeLtP a.fm_range_ b.fm_range_) acc2.done
  d3 : ∀ w ∈ acc2.done, w.is_valid = true → ∀ x ∈ c :: rest,
    rangeLtP w.fm_range_ x.fm_range_
  d3e : ∀ w ∈ acc2.done, ∀ x ∈ c :: rest, rangeLeP w.fm_range_ x.fm_range_
  d4 : ∀ w ∈ acc2.done, ∀ x ∈ c :: rest, w.fm_range_ = x.fm_range_ →
    w.seed_prob_ ≤ x.seed_prob_
  s1 : ∀ src ∈ acc2.srcs, GoodPath env src
  s2 : List.Pairwise (fun a b => a.fm_range_ ≠ b.fm_range_) acc2.srcs
  s3 : ∀ src ∈ acc2.srcs, ∀ x ∈ acc2.done, src.fm_range_ ≠ x.fm_range_
  s4 : ∀ src ∈ acc2.srcs, ∀ x ∈ c :: rest, x.kmer_ = src.kmer_ →
    src.fm_range_.end_ < x.fm_range_.start_
  skc : ∀ src ∈ acc2.srcs, (∃ x ∈ acc2.done, x.kmer_ = src.kmer_) ∨ src.kmer_ = c.kmer_
  bkc : ∀ x ∈ acc2.done, ∀ y ∈ c :: rest, x.kmer_ = y.kmer_ → x.kmer_ = c.kmer_
  prevc : acc2.prev_kmer = c.kmer_
  wit : ∀ y ∈ acc2.done,
    (∃ w2 ∈ acc2.done, w2.is_valid = true ∧ w2.fm_range_ = y.fm_range_ ∧
      (∀ z ∈ acc2.done, z.fm_range_ = y.fm_range_ → z.seed_prob_ ≤ w2.seed_prob_) ∧
      (∀ x ∈ c :: rest, x.fm_range_ ≠ y.fm_range_)) ∨
    (∃ x ∈ c :: rest, x.fm_range_ = y.fm_range_)
  uncm : env.opts.get_source_prob ≤ probs.getD c.kmer_ 0 → 0 < acc2.cap →
    acc2.unchecked.end_ = (kmer_fmrange env c.kmer_).end_ ∧
    (kmer_fmrange env c.kmer_).start_ ≤ acc2.unchecked.start_ ∧
    (∀ x ∈ acc2.done, x.kmer_ = c.kmer_ → x.fm_range_.end_ < acc2.unchecked.start_) ∧
    (∀ src ∈ acc2.srcs, src.kmer_ = c.kmer_ →
      src.fm_range_.end_ < acc2.unchecked.start_) ∧
    c.fm_range_.end_ < acc2.unchecked.start_

/-- Consuming the leading-source block of one child preserves the
invariant, in its mid-iteration form. -/
theorem lead_inv {env : Env} {probs : List ℚ} {c : PathBuffer} {rest : List PathBuffer}
    {acc : CAcc} (HFdis : FMDisjoint env) (HFpos : FMPositive env)
    (hinv : CInv env probs (c :: rest) acc) :
    CMid env probs c rest { phaseC_lead env probs c acc with prev_kmer := c.kmer_ } := by
  obtain ⟨⟨hcfm, hck, hcst, hcen⟩, hcal⟩ := hinv.rc c (List.mem_cons_self c rest)
  have hcle : c.fm_range_.start_ ≤ c.fm_range_.end_ := by
    simpa [Range.is_valid] using hcfm
  have hsrtc := (List.pairwise_cons.mp hinv.srt).1
  have bkc_gen : ∀ x ∈ acc.done, ∀ y ∈ c :: rest, x.kmer_ = y.kmer_ →
      x.kmer_ = c.kmer_ := by
    intro x hx y hy hk
    rcases List.mem_cons.mp hy with rfl | hy2
    · exact hk
    · exact done_kmer_eq HFdis (hinv.d1 x hx) ⟨hcfm, hck, hcst, hcen⟩
        (hinv.rc y (List.mem_cons_of_mem c hy2)).1
        (hinv.d3e x hx c (List.mem_cons_self c rest))
        (pbLe_range_le (hsrtc y hy2)) hk
  cases hcond : (c.kmer_ != acc.prev_kmer && decide (0 < acc.cap) &&
      decide (probs.getD c.kmer_ 0 ≥ env.opts.get_source_prob)) with
  | false =>
    rw [phaseC_lead_neg env probs c acc hcond]
    have hcases : (c.kmer_ != acc.prev_kmer) = false ∨ (decide (0 < acc.cap)) = false ∨
        (decide (probs.getD c.kmer_ 0 ≥ env.opts.get_source_prob)) = false := by
      rcases h1 : (c.kmer_ != acc.prev_kmer) with _ | _
      · exact Or.inl rfl
      · rcases h2 : (decide (0 < acc.cap)) with _ | _
        · exact Or.inr (Or.inl rfl)
        · rcases h3 : (decide (probs.getD c.kmer_ 0 ≥ env.opts.get_source_prob))
            with _ | _
          · exact Or.inr (Or.inr rfl)
          · rw [h1, h2, h3] at hcond
            exact absurd hcond (by simp)
    refine ⟨hinv.srt, hinv.rc, hinv.d1, hinv.d2, hinv.d3, hinv.d3e, hinv.d4, hinv.s1,
      hinv.s2, hinv.s3, hinv.s4, fun src hs => Or.inl (hinv.sk src hs), bkc_gen, rfl,
      hinv.wit, ?_⟩
    intro hs hcap
    rcases hcases with hprev | hcap0 | hnsrc
    · have hpe : c.kmer_ = acc.prev_kmer := by simpa using hprev
      have hdone : ∃ x ∈ acc.done, x.kmer_ = c.kmer_ := by
        by_cases hd : acc.done = []
        · exfalso
          have h0 := hinv.pk0 hd
          rw [← hpe] at h0
          omega
        · obtain ⟨x, hx, hxk⟩ := hinv.pk1 hd
          exact ⟨x, hx, by rw [hxk, ← hpe]⟩
      obtain ⟨u1, u2, u3, u4, u5⟩ := hinv.unc c.kmer_ hpe.symm hck hs hcap hdone
        ⟨c, List.mem_cons_self c rest, rfl⟩
      exact ⟨u1, u2, u3, u4, u5 c rfl rfl⟩
    · exact absurd hcap (of_decide_eq_false hcap0)
    · exact absurd hs (of_decide_eq_false hnsrc)
  | true =>
    have hargs : c.kmer_ ≠ acc.prev_kmer ∧ 0 < acc.cap ∧
        env.opts.get_source_prob ≤ probs.getD c.kmer_ 0 := by
      have h := hcond
      simp only [Bool.and_eq_true, bne_iff_ne, ne_eq, decide_eq_true_eq, ge_iff_le] at h
      exact ⟨h.1.1, h.1.2, h.2⟩
    obtain ⟨hne, hcappos, hsok⟩ := hargs
    have hnodone : ∀ x ∈ acc.done, x.kmer_ ≠ c.kmer_ := by
      intro x hx hk
      exact hne (hk.symm.trans (hinv.bk x hx c (List.mem_cons_self c rest) hk))
    have hnosrc : ∀ s ∈ acc.srcs, s.kmer_ ≠ c.kmer_ := by
      intro s hs hk
      obtain ⟨x, hx, hxk⟩ := hinv.sk s hs
      exact hnodone x hx (hxk.trans hk)
    cases hv : (Range.mk (kmer_fmrange env c.kmer_).start_
        (c.fm_range_.start_ - 1)).is_valid with
    | false =>
      rw [phaseC_lead_pos_invalid env probs c acc hcond hv]
      refine ⟨hinv.srt, hinv.rc, hinv.d1, hinv.d2, hinv.d3, hinv.d3e, hinv.d4, hinv.s1,
        hinv.s2, hinv.s3, hinv.s4, fun src hs => Or.inl (hinv.sk src hs), bkc_gen, rfl,
        hinv.wit, ?_⟩
      intro hs hcap
      refine ⟨rfl, ?_, ?_, ?_, ?_⟩
      · show (kmer_fmrange env c.kmer_).start_ ≤ c.fm_range_.end_ + 1
        omega
      · intro x hx hk
        exact absurd hk (hnodone x hx)
      · intro src hsrc hk
        exact absurd hk (hnosrc src hsrc)
      · show c.fm_range_.end_ < c.fm_range_.end_ + 1
        omega
    | true =>
      rw [phaseC_lead_pos_valid env probs c acc hcond hv]
      have hsv : (kmer_fmrange env c.kmer_).start_ ≤ c.fm_range_.start_ - 1 := by
        simpa [Range.is_valid] using hv
      have h1le : 1 ≤ c.fm_range_.start_ := le_trans (HFpos c.kmer_ hck) hcst
      refine ⟨hinv.srt, hinv.rc, hinv.d1, hinv.d2, hinv.d3, hinv.d3e, hinv.d4, ?_, ?_,
        ?_, ?_, ?_, bkc_gen, rfl, hinv.wit, ?_⟩
      · intro src hsrc
        rcases List.mem_append.mp hsrc with hold | hnew
        · exact hinv.s1 src hold
        · rw [List.mem_singleton.mp hnew]
          exact ⟨hv, hck, le_refl _,
            by show c.fm_range_.start_ - 1 ≤ (kmer_fmrange env c.kmer_).end_; omega⟩
      · rw [List.pairwise_append]
        refine ⟨hinv.s2, by simp, ?_⟩
        intro a ha b hb
        rw [List.mem_singleton.mp hb]
        obtain ⟨hav, hak, has, hae⟩ := hinv.s1 a ha
        exact range_ne_of_disjoint (HFdis a.kmer_ hak c.kmer_ hck (hnosrc a ha))
          hav hv has hae (le_refl _)
          (by show c.fm_range_.start_ - 1 ≤ (kmer_fmrange env c.kmer_).end_; omega)
      · intro src hsrc x hx
        rcases List.mem_append.mp hsrc with hold | hnew
        · exact hinv.s3 src hold x hx
        · rw [List.mem_singleton.mp hnew]
          obtain ⟨hxv, hxk, hxs, hxe⟩ := hinv.d1 x hx
          exact range_ne_of_disjoint
            (HFdis c.kmer_ hck x.kmer_ hxk (fun h => hnodone x hx h.symm))
            hv hxv (le_refl _)
            (by show c.fm_range_.start_ - 1 ≤ (kmer_fmrange env c.kmer_).end_; omega)
            hxs hxe
      · intro src hsrc x hx hxk
        rcases List.mem_append.mp hsrc with hold | hnew
        · exact hinv.s4 src hold x hx hxk
        · have hxs : c.fm_range_.start_ ≤ x.fm_range_.start_ := by
            rcases List.mem_cons.mp hx with rfl | hx2
            · exact le_refl _
            · exact rangeLeP_start_le (pbLe_range_le (hsrtc x hx2))
          rw [List.mem_singleton.mp hnew]
          show c.fm_range_.start_ - 1 < x.fm_range_.start_
          omega
      · intro src hsrc
        rcases List.mem_append.mp hsrc with hold | hnew
        · exact Or.inl (hinv.sk src hold)
        · rw [List.mem_singleton.mp hnew]
          exact Or.inr rfl
      · intro hs hcap
        refine ⟨rfl, ?_, ?_, ?_, ?_⟩
        · show (kmer_fmrange env c.kmer_).start_ ≤ c.fm_range_.end_ + 1
          omega
        · intro x hx hk
          exact absurd hk (hnodone x hx)
        · intro src hsrc hk
          rcases List.mem_append.mp hsrc with hold | hnew
          · exact absurd hk (hnosrc src hold)
          · rw [List.mem_singleton.mp hnew]
            show c.fm_range_.start_ - 1 < c.fm_range_.end_ + 1
            omega
        · show c.fm_range_.end_ < c.fm_range_.end_ + 1
          omega

/-- The dedup branch: a child sharing its range with the next sorted
entry is pushed invalidated, and the invariant advances. -/
theorem dedup_inv {env : Env} {probs : List ℚ} {c c2 : PathBuffer}
    {rest2 : List PathBuffer} {acc2 : CAcc} (HFdis : FMDisjoint env)
    (hmid : CMid env probs c (c2 :: rest2) acc2)
    (hdup : c.fm_range_ = c2.fm_range_) :
    CInv env probs (c2 :: rest2) { acc2 with done := acc2.done ++ [c.invalidate] } := by
  obtain ⟨⟨hcfm, hck, hcst, hcen⟩, hcal⟩ := hmid.rc c (List.mem_cons_self _ _)
  have hc2g := hmid.rc c2 (List.mem_cons_of_mem c (List.mem_cons_self _ _))
  have hcle : c.fm_range_.start_ ≤ c.fm_range_.end_ := by
    simpa [Range.is_valid] using hcfm
  have hck2 : c2.kmer_ = c.kmer_ :=
    kmer_eq_of_range_eq HFdis hc2g.1 ⟨hcfm, hck, hcst, hcen⟩ hdup.symm
  have hinvv : c.invalidate.is_valid = false := rfl
  have hsrtc := (List.pairwise_cons.mp hmid.srt).1
  refine ⟨(List.pairwise_cons.mp hmid.srt).2,
    fun x hx => hmid.rc x (List.mem_cons_of_mem c hx), ?_, ?_, ?_, ?_, ?_,
    hmid.s1, hmid.s2, ?_, ?_, ?_, ?_, ?_, ?_, ?_, ?_⟩
  · intro w hw
    rcases List.mem_append.mp hw with hold | hnew
    · exact hmid.d1 w hold
    · rw [List.mem_singleton.mp hnew]
      exact ⟨hcfm, hck, hcst, hcen⟩
  · rw [List.pairwise_append]
    refine ⟨hmid.d2, by simp, ?_⟩
    intro a ha b hb _ hbv
    rw [List.mem_singleton.mp hb] at hbv
    exact absurd hbv (by rw [hinvv]; simp)
  · intro w hw hwv x hx
    rcases List.mem_append.mp hw with hold | hnew
    · exact hmid.d3 w hold hwv x (List.mem_cons_of_mem c hx)
    · rw [List.mem_singleton.mp hnew] at hwv
      exact absurd hwv (by rw [hinvv]; simp)
  · intro w hw x hx
    rcases List.mem_append.mp hw with hold | hnew
    · exact hmid.d3e w hold x (List.mem_cons_of_mem c hx)
    · rw [List.mem_singleton.mp hnew]
      exact pbLe_range_le (hsrtc x hx)
  · intro w hw x hx he
    rcases List.mem_append.mp hw with hold | hnew
    · exact hmid.d4 w hold x (List.mem_cons_of_mem c hx) he
    · rw [List.mem_singleton.mp hnew] at he ⊢
      exact pbLe_prob_le (hsrtc x hx) he
  · intro src hs x hx
    rcases List.mem_append.mp hx with hold | hnew
    · exact hmid.s3 src hs x hold
    · rw [List.mem_singleton.mp hnew]
      show src.fm_range_ ≠ c.fm_range_
      by_cases hk : src.kmer_ = c.kmer_
      · intro he
        have h4 := hmid.s4 src hs c (List.mem_cons_self _ _) hk.symm
        rw [he] at h4
        omega
      · obtain ⟨hsv, hskm, hss, hse⟩ := hmid.s1 src hs
        exact range_ne_of_disjoint (HFdis src.kmer_ hskm c.kmer_ hck hk)
          hsv hcfm hss hse hcst hcen
  · intro src hs x hx hxk
    exact hmid.s4 src hs x (List.mem_cons_of_mem c hx) hxk
  · intro src hs
    rcases hmid.skc src hs with ⟨x, hx, hk⟩ | hk
    · exact ⟨x, List.mem_append.mpr (Or.inl hx), hk⟩
    · exact ⟨c.invalidate, List.mem_append.mpr (Or.inr (List.mem_singleton_self _)),
        hk.symm⟩
  · intro x hx y hy hk
    show x.kmer_ = acc2.prev_kmer
    rw [hmid.prevc]
    rcases List.mem_append.mp hx with hold | hnew
    · exact hmid.bkc x hold y (List.mem_cons_of_mem c hy) hk
    · rw [List.mem_singleton.mp hnew]
      rfl
  · intro h
    exact absurd h (by simp)
  · intro _
    refine ⟨c.invalidate, List.mem_append.mpr (Or.inr (List.mem_singleton_self _)), ?_⟩
    show c.kmer_ = acc2.prev_kmer
    rw [hmid.prevc]
  · intro y hy
    rcases List.mem_append.mp hy with hold | hnew
    · rcases hmid.wit y hold with ⟨w2, hw2, hval, hre, hmax, hnox⟩ | ⟨x, hx, hxe⟩
      · refine Or.inl ⟨w2, List.mem_append.mpr (Or.inl hw2), hval, hre, ?_, ?_⟩
        · intro z hz hze
          rcases List.mem_append.mp hz with hzold | hznew
          · exact hmax z hzold hze
          · rw [List.mem_singleton.mp hznew] at hze
            exact absurd hze (hnox c (List.mem_cons_self _ _))
        · intro x hx
          exact hnox x (List.mem_cons_of_mem c hx)
      · rcases List.mem_cons.mp hx with rfl | hx2
        · exact Or.inr ⟨c2, List.mem_cons_self _ _, hdup.symm.trans hxe⟩
        · exact Or.inr ⟨x, hx2, hxe⟩
    · rw [List.mem_singleton.mp hnew]
      exact Or.inr ⟨c2, List.mem_cons_self _ _, hdup.symm⟩
  · intro s0 hps hs0 hsok hcap hdo hre
    have hcs0 : c.kmer_ = s0 := by
      rw [← hmid.prevc]
      exact hps
    obtain ⟨u1, u2, u3, u4, u5c⟩ := hmid.uncm (hcs0 ▸ hsok) hcap
    refine ⟨hcs0 ▸ u1, hcs0 ▸ u2, ?_, ?_, ?_⟩
    · intro x hx hxk
      rcases List.mem_append.mp hx with hold | hnew
      · exact u3 x hold (hxk.trans hcs0.symm)
      · rw [List.mem_singleton.mp hnew]
        exact u5c
    · intro src hs hsk
      exact u4 src hs (hsk.trans hcs0.symm)
    · intro x hxh hxk
      have hx2 : c2 = x := by
        simpa using hxh
      rw [← hx2, ← hdup]
      exact u5c

/-- The main branch: a child with no duplicate ahead goes through the
trailing-source block and is pushed via `update_seeds`; the invariant
advances. -/
theorem main_inv {env : Env} {probs : List ℚ} {c : PathBuffer} {rest : List PathBuffer}
    {acc2 : CAcc} (HFdis : FMDisjoint env) (HFpos : FMPositive env) (event_i : Nat)
    (hmid : CMid env probs c rest acc2)
    (hnodup : ∀ c2, rest.head? = some c2 → c.fm_range_ ≠ c2.fm_range_) :
    CInv env probs rest
      { phaseC_after env probs c rest.head? acc2 with
        done := (phaseC_after env probs c rest.head? acc2).done
          ++ [(update_seeds env event_i c false).1],
        seeds := (phaseC_after env probs c rest.head? acc2).seeds
          ++ (update_seeds env event_i c false).2 } := by
  obtain ⟨⟨hcfm, hck, hcst, hcen⟩, hcal⟩ := hmid.rc c (List.mem_cons_self _ _)
  have hcle : c.fm_range_.start_ ≤ c.fm_range_.end_ := by
    simpa [Range.is_valid] using hcfm
  obtain ⟨hufm, hupr, hukm, huvl⟩ := update_seeds_fst_fields env event_i c false
  have huv : (update_seeds env event_i c false).1.is_valid = true := by
    rw [huvl]
    exact hcal
  have hsrtc := (List.pairwise_cons.mp hmid.srt).1
  have hsrt2 := (List.pairwise_cons.mp hmid.srt).2
  have hnor : ∀ x ∈ rest, x.fm_range_ ≠ c.fm_range_ := by
    cases rest with
    | nil =>
      intro x hx
      exact absurd hx (List.not_mem_nil x)
    | cons c2 rest2 => exact no_later_range hmid.srt (hnodup c2 rfl)
  have D1 : ∀ w ∈ acc2.done ++ [(update_seeds env event_i c false).1],
      GoodPath env w := by
    intro w hw
    rcases List.mem_append.mp hw with hold | hnew
    · exact hmid.d1 w hold
    · rw [List.mem_singleton.mp hnew]
      exact ⟨by rw [hufm]; exact hcfm, by rw [hukm]; exact hck,
        by rw [hukm, hufm]; exact hcst, by rw [hukm, hufm]; exact hcen⟩
  have D2 : List.Pairwise (fun a b => a.is_valid = true → b.is_valid = true →
      rangeLtP a.fm_range_ b.fm_range_)
      (acc2.done ++ [(update_seeds env event_i c false).1]) := by
    rw [List.pairwise_append]
    refine ⟨hmid.d2, by simp, ?_⟩
    intro a ha b hb
    rw [List.mem_singleton.mp hb]
    intro hav _
    rw [hufm]
    exact hmid.d3 a ha hav c (List.mem_cons_self _ _)
  have D3 : ∀ w ∈ acc2.done ++ [(update_seeds env event_i c false).1],
      w.is_valid = true → ∀ x ∈ rest, rangeLtP w.fm_range_ x.fm_range_ := by
    intro w hw hwv x hx
    rcases List.mem_append.mp hw with hold | hnew
    · exact hmid.d3 w hold hwv x (List.mem_cons_of_mem c hx)
    · rw [List.mem_singleton.mp hnew, hufm]
      exact rangeLtP_of_le_of_ne (pbLe_range_le (hsrtc x hx))
        (fun he => hnor x hx he.symm)
  have D3e : ∀ w ∈ acc2.done ++ [(update_seeds env event_i c false).1],
      ∀ x ∈ rest, rangeLeP w.fm_range_ x.fm_range_ := by
    intro w hw x hx
    rcases List.mem_append.mp hw with hold | hnew
    · exact hmid.d3e w hold x (List.mem_cons_of_mem c hx)
    · rw [List.mem_singleton.mp hnew, hufm]
      exact pbLe_range_le (hsrtc x hx)
  have D4 : ∀ w ∈ acc2.done ++ [(update_seeds env event_i c false).1],
      ∀ x ∈ rest, w.fm_range_ = x.fm_range_ → w.seed_prob_ ≤ x.seed_prob_ := by
    intro w hw x hx he
    rcases List.mem_append.mp hw with hold | hnew
    · exact hmid.d4 w hold x (List.mem_cons_of_mem c hx) he
    · rw [List.mem_singleton.mp hnew] at he ⊢
      rw [hufm] at he
      rw [hupr]
      exact pbLe_prob_le (hsrtc x hx) he
  have BK : ∀ x ∈ acc2.done ++ [(update_seeds env event_i c false).1],
      ∀ y ∈ rest, x.kmer_ = y.kmer_ → x.kmer_ = c.kmer_ := by
    intro x hx y hy hk
    rcases List.mem_append.mp hx with hold | hnew
    · exact hmid.bkc x hold y (List.mem_cons_of_mem c hy) hk
    · rw [List.mem_singleton.mp hnew]
      exact hukm
  have BKA : ∀ x ∈ acc2.done ++ [(update_seeds env event_i c false).1],
      ∀ y ∈ rest, x.kmer_ = y.kmer_ → x.kmer_ = acc2.prev_kmer := by
    intro x hx y hy hk
    rw [hmid.prevc]
    exact BK x hx y hy hk
  have PK1A : ∃ x ∈ acc2.done ++ [(update_seeds env event_i c false).1],
      x.kmer_ = acc2.prev_kmer := by
    rw [hmid.prevc]
    exact ⟨_, List.mem_append.mpr (Or.inr (List.mem_singleton_self _)), hukm⟩
  have NE : acc2.done ++ [(update_seeds env event_i c false).1] ≠ [] := by
    simp
  have S3U : ∀ src ∈ acc2.srcs,
      src.fm_range_ ≠ (update_seeds env event_i c false).1.fm_range_ := by
    intro src hs
    rw [hufm]
    by_cases hk : src.kmer_ = c.kmer_
    · intro he
      have h4 := hmid.s4 src hs c (List.mem_cons_self _ _) hk.symm
      rw [he] at h4
      omega
    · obtain ⟨hsv, hskm, hss, hse⟩ := hmid.s1 src hs
      exact range_ne_of_disjoint (HFdis src.kmer_ hskm c.kmer_ hck hk)
        hsv hcfm hss hse hcst hcen
  have S3D : ∀ src ∈ acc2.srcs,
      ∀ x ∈ acc2.done ++ [(update_seeds env event_i c false).1],
      src.fm_range_ ≠ x.fm_range_ := by
    intro src hs x hx
    rcases List.mem_append.mp hx with hold | hnew
    · exact hmid.s3 src hs x hold
    · rw [List.mem_singleton.mp hnew]
      exact S3U src hs
  have SK : ∀ src ∈ acc2.srcs,
      ∃ x ∈ acc2.done ++ [(update_seeds env event_i c false).1],
      x.kmer_ = src.kmer_ := by
    intro src hs
    rcases hmid.skc src hs with ⟨x, hx, hk⟩ | hk
    · exact ⟨x, List.mem_append.mpr (Or.inl hx), hk⟩
    · exact ⟨_, List.mem_append.mpr (Or.inr (List.mem_singleton_self _)),
        hukm.trans hk.symm⟩
  have WIT : ∀ y ∈ acc2.done ++ [(update_seeds env event_i c false).1],
      (∃ w2 ∈ acc2.done ++ [(update_seeds env event_i c false).1],
        w2.is_valid = true ∧ w2.fm_range_ = y.fm_range_ ∧
        (∀ z ∈ acc2.done ++ [(update_seeds env event_i c false).1],
          z.fm_range_ = y.fm_range_ → z.seed_prob_ ≤ w2.seed_prob_) ∧
        (∀ x ∈ rest, x.fm_range_ ≠ y.fm_range_)) ∨
      (∃ x ∈ rest, x.fm_range_ = y.fm_range_) := by
    intro y hy
    rcases List.mem_append.mp hy with hold | hnew
    · rcases hmid.wit y hold with ⟨w2, hw2, hval, hre, hmax, hnox⟩ | ⟨x, hx, hxe⟩
      · refine Or.inl ⟨w2, List.mem_append.mpr (Or.inl hw2), hval, hre, ?_, ?_⟩
        · intro z hz hze
          rcases List.mem_append.mp hz with hzold | hznew
          · exact hmax z hzold hze
          · rw [List.mem_singleton.mp hznew] at hze
            rw [hufm] at hze
            exact absurd hze (hnox c (List.mem_cons_self _ _))
        · intro x hx
          exact hnox x (List.mem_cons_of_mem c hx)
      · rcases List.mem_cons.mp hx with rfl | hx2
        · by_cases hshare : ∃ z ∈ rest, z.fm_range_ = y.fm_range_
          · exact Or.inr hshare
          · push_neg at hshare
            refine Or.inl ⟨_, List.mem_append.mpr (Or.inr (List.mem_singleton_self _)),
              huv, by rw [hufm]; exact hxe, ?_, hshare⟩
            intro z hz hze
            rcases List.mem_append.mp hz with hzold | hznew
            · rw [hupr]
              exact hmid.d4 z hzold x (List.mem_cons_self _ _) (hze.trans hxe.symm)
            · rw [List.mem_singleton.mp hznew]
        · exact Or.inr ⟨x, hx2, hxe⟩
    · rw [List.mem_singleton.mp hnew]
      refine Or.inl ⟨_, List.mem_append.mpr (Or.inr (List.mem_singleton_self _)),
        huv, rfl, ?_, ?_⟩
      · intro z hz hze
        rcases List.mem_append.mp hz with hzold | hznew
        · rw [hupr]
          rw [hufm] at hze
          exact hmid.d4 z hzold c (List.mem_cons_self _ _) hze
        · rw [List.mem_singleton.mp hznew]
      · intro x hx
        rw [hufm]
        exact hnor x hx
  cases rest with
  | nil =>
    rw [List.head?_nil]
    cases hok : (decide (0 < acc2.cap) &&
        decide (probs.getD c.kmer_ 0 ≥ env.opts.get_source_prob)) with
    | false =>
      rw [phaseC_after_neg env probs c none acc2 hok]
      refine ⟨List.Pairwise.nil, fun x hx => absurd hx (List.not_mem_nil x), D1, D2, D3,
        D3e, D4, hmid.s1, hmid.s2, S3D, fun src hs x hx => absurd hx (List.not_mem_nil x),
        SK, BKA, fun h => absurd h NE, fun _ => PK1A, WIT, ?_⟩
      intro s0 hps hs0 hsok hcap hdo hre
      obtain ⟨y, hy, _⟩ := hre
      exact absurd hy (List.not_mem_nil y)
    | true =>
      have hargs : 0 < acc2.cap ∧ env.opts.get_source_prob ≤ probs.getD c.kmer_ 0 := by
        have h := hok
        simp only [Bool.and_eq_true, decide_eq_true_eq, ge_iff_le] at h
        exact h
      obtain ⟨u1, u2, u3, u4, u5c⟩ := hmid.uncm hargs.2 hargs.1
      cases huv2 : acc2.unchecked.is_valid with
      | false =>
        rw [phaseC_after_pos_none_invalid env probs c acc2 hok huv2]
        refine ⟨List.Pairwise.nil, fun x hx => absurd hx (List.not_mem_nil x), D1, D2, D3,
          D3e, D4, hmid.s1, hmid.s2, S3D,
          fun src hs x hx => absurd hx (List.not_mem_nil x),
          SK, BKA, fun h => absurd h NE, fun _ => PK1A, WIT, ?_⟩
        intro s0 hps hs0 hsok hcap hdo hre
        obtain ⟨y, hy, _⟩ := hre
        exact absurd hy (List.not_mem_nil y)
      | true =>
        rw [phaseC_after_pos_none_valid env probs c acc2 hok huv2]
        have hule : acc2.unchecked.start_ ≤ acc2.unchecked.end_ := by
          simpa [Range.is_valid] using huv2
        refine ⟨List.Pairwise.nil, fun x hx => absurd hx (List.not_mem_nil x), D1, D2, D3,
          D3e, D4, ?_, ?_, ?_, fun src hs x hx => absurd hx (List.not_mem_nil x),
          ?_, BKA, fun h => absurd h NE, fun _ => PK1A, WIT, ?_⟩
        · intro src hs
          rcases List.mem_append.mp hs with hold | hnew
          · exact hmid.s1 src hold
          · rw [List.mem_singleton.mp hnew]
            exact ⟨huv2, hck, u2, le_of_eq u1⟩
        · rw [List.pairwise_append]
          refine ⟨hmid.s2, by simp, ?_⟩
          intro a ha b hb
          rw [List.mem_singleton.mp hb]
          by_cases hak : a.kmer_ = c.kmer_
          · have h4 := u4 a ha hak
            intro he
            have he2 : a.fm_range_ = acc2.unchecked := he
            rw [he2] at h4
            omega
          · obtain ⟨hav, hakm, has, hae⟩ := hmid.s1 a ha
            exact range_ne_of_disjoint (HFdis a.kmer_ hakm c.kmer_ hck hak)
              hav huv2 has hae u2 (le_of_eq u1)
        · intro src hs x hx
          rcases List.mem_append.mp hs with hold | hnew
          · exact S3D src hold x hx
          · rw [List.mem_singleton.mp hnew]
            rcases List.mem_append.mp hx with hxold | hxnew
            · by_cases hk : x.kmer_ = c.kmer_
              · have h3 := u3 x hxold hk
                intro he
                have he2 : acc2.unchecked = x.fm_range_ := he
                rw [← he2] at h3
                omega
              · obtain ⟨hxv, hxkm, hxs, hxe⟩ := hmid.d1 x hxold
                exact range_ne_of_disjoint
                  (HFdis c.kmer_ hck x.kmer_ hxkm (fun h => hk h.symm))
                  huv2 hxv u2 (le_of_eq u1) hxs hxe
            · rw [List.mem_singleton.mp hxnew, hufm]
              intro he
              have he2 : acc2.unchecked = c.fm_range_ := he
              rw [← he2] at u5c
              omega
        · intro src hs
          rcases List.mem_append.mp hs with hold | hnew
          · exact SK src hold
          · rw [List.mem_singleton.mp hnew]
            exact ⟨_, List.mem_append.mpr (Or.inr (List.mem_singleton_self _)), hukm⟩
        · intro s0 hps hs0 hsok hcap hdo hre
          obtain ⟨y, hy, _⟩ := hre
          exact absurd hy (List.not_mem_nil y)
  | cons c2 rest2 =>
    rw [List.head?_cons]
    obtain ⟨⟨h2fm, h2k, h2st, h2en⟩, h2al⟩ :=
      hmid.rc c2 (List.mem_cons_of_mem c (List.mem_cons_self _ _))
    have h2le : c2.fm_range_.start_ ≤ c2.fm_range_.end_ := by
      simpa [Range.is_valid] using h2fm
    have hnd : c.fm_range_ ≠ c2.fm_range_ := hnodup c2 rfl
    have RC2 : ∀ x ∈ c2 :: rest2, GoodChild env x :=
      fun x hx => hmid.rc x (List.mem_cons_of_mem c hx)
    have S4R : ∀ src ∈ acc2.srcs, ∀ x ∈ c2 :: rest2, x.kmer_ = src.kmer_ →
        src.fm_range_.end_ < x.fm_range_.start_ :=
      fun src hs x hx hxk => hmid.s4 src hs x (List.mem_cons_of_mem c hx) hxk
    cases hok : (decide (0 < acc2.cap) &&
        decide (probs.getD c.kmer_ 0 ≥ env.opts.get_source_prob)) with
    | false =>
      rw [phaseC_after_neg env probs c (some c2) acc2 hok]
      have hcases : (decide (0 < acc2.cap)) = false ∨
          (decide (probs.getD c.kmer_ 0 ≥ env.opts.get_source_prob)) = false := by
        rcases h1 : decide (0 < acc2.cap) with _ | _
        · exact Or.inl rfl
        · rcases h2 : decide (probs.getD c.kmer_ 0 ≥ env.opts.get_source_prob) with _ | _
          · exact Or.inr rfl
          · rw [h1, h2] at hok
            exact absurd hok (by simp)
      refine ⟨hsrt2, RC2, D1, D2, D3, D3e, D4, hmid.s1, hmid.s2, S3D, S4R, SK, BKA,
        fun h => absurd h NE, fun _ => PK1A, WIT, ?_⟩
      intro s0 hps hs0 hsok hcap hdo hre
      have hcs0 : c.kmer_ = s0 := by
        rw [← hmid.prevc]
        exact hps
      rcases hcases with h1 | h2
      · exact absurd hcap (of_decide_eq_false h1)
      · rw [← hcs0] at hsok
        exact absurd hsok (of_decide_eq_false h2)
    | true =>
      have hargs : 0 < acc2.cap ∧ env.opts.get_source_prob ≤ probs.getD c.kmer_ 0 := by
        have h := hok
        simp only [Bool.and_eq_true, decide_eq_true_eq, ge_iff_le] at h
        exact h
      obtain ⟨u1, u2, u3, u4, u5c⟩ := hmid.uncm hargs.2 hargs.1
      cases hkm : (c2.kmer_ == c.kmer_) with
      | true =>
        have hkme : c2.kmer_ = c.kmer_ := by simpa using hkm
        have h2stc : (kmer_fmrange env c.kmer_).start_ ≤ c2.fm_range_.start_ := by
          rw [← hkme]
          exact h2st
        have h2enc : c2.fm_range_.end_ ≤ (kmer_fmrange env c.kmer_).end_ := by
          rw [← hkme]
          exact h2en
        have h1le2 : 1 ≤ c2.fm_range_.start_ := le_trans (HFpos c.kmer_ hck) h2stc
        cases hv : (Range.mk acc2.unchecked.start_ (c2.fm_range_.start_ - 1)).is_valid with
        | true =>
          rw [phaseC_after_pos_same_valid env probs c c2 acc2 hok hkm h2le hv]
          have hvle : acc2.unchecked.start_ ≤ c2.fm_range_.start_ - 1 := by
            simpa [Range.is_valid] using hv
          refine ⟨hsrt2, RC2, D1, D2, D3, D3e, D4, ?_, ?_, ?_, ?_, ?_, BKA,
            fun h => absurd h NE, fun _ => PK1A, WIT, ?_⟩
          · intro src hs
            rcases List.mem_append.mp hs with hold | hnew
            · exact hmid.s1 src hold
            · rw [List.mem_singleton.mp hnew]
              refine ⟨hv, hck, u2, ?_⟩
              show c2.fm_range_.start_ - 1 ≤ (kmer_fmrange env c.kmer_).end_
              omega
          · rw [List.pairwise_append]
            refine ⟨hmid.s2, by simp, ?_⟩
            intro a ha b hb
            rw [List.mem_singleton.mp hb]
            by_cases hak : a.kmer_ = c.kmer_
            · have h4 := u4 a ha hak
              intro he
              have he2 : a.fm_range_.end_ = c2.fm_range_.start_ - 1 :=
                congrArg Range.end_ he
              omega
            · obtain ⟨hav, hakm, has, hae⟩ := hmid.s1 a ha
              refine range_ne_of_disjoint (HFdis a.kmer_ hakm c.kmer_ hck hak)
                hav hv has hae u2 ?_
              show c2.fm_range_.start_ - 1 ≤ (kmer_fmrange env c.kmer_).end_
              omega
          · intro src hs x hx
            rcases List.mem_append.mp hs with hold | hnew
            · exact S3D src hold x hx
            · rw [List.mem_singleton.mp hnew]
              rcases List.mem_append.mp hx with hxold | hxnew
              · by_cases hk : x.kmer_ = c.kmer_
                · have h3 := u3 x hxold hk
                  intro he
                  have he2 : c2.fm_range_.start_ - 1 = x.fm_range_.end_ :=
                    congrArg Range.end_ he
                  omega
                · obtain ⟨hxv, hxkm, hxs, hxe⟩ := hmid.d1 x hxold
                  refine range_ne_of_disjoint
                    (HFdis c.kmer_ hck x.kmer_ hxkm (fun h => hk h.symm))
                    hv hxv u2 ?_ hxs hxe
                  show c2.fm_range_.start_ - 1 ≤ (kmer_fmrange env c.kmer_).end_
                  omega
              · rw [List.mem_singleton.mp hxnew, hufm]
                intro he
                have he2 : c2.fm_range_.start_ - 1 = c.fm_range_.end_ :=
                  congrArg Range.end_ he
                omega
          · intro src hs x hx hxk
            rcases List.mem_append.mp hs with hold | hnew
            · exact hmid.s4 src hold x (List.mem_cons_of_mem c hx) hxk
            · rw [List.mem_singleton.mp hnew]
              show c2.fm_range_.start_ - 1 < x.fm_range_.start_
              have hxs : c2.fm_range_.start_ ≤ x.fm_range_.start_ := by
                rcases List.mem_cons.mp hx with rfl | hx2
                · exact le_refl _
                · exact rangeLeP_start_le (pbLe_range_le
                    ((List.pairwise_cons.mp hsrt2).1 x hx2))
              omega
          · intro src hs
            rcases List.mem_append.mp hs with hold | hnew
            · exact SK src hold
            · rw [List.mem_singleton.mp hnew]
              exact ⟨_, List.mem_append.mpr (Or.inr (List.mem_singleton_self _)), hukm⟩
          · intro s0 hps hs0 hsok hcap hdo hre
            have hcs0 : c.kmer_ = s0 := by
              rw [← hmid.prevc]
              exact hps
            subst hcs0
            refine ⟨?_, ?_, ?_, ?_, ?_⟩
            · show acc2.unchecked.end_ = (kmer_fmrange env c.kmer_).end_
              exact u1
            · show (kmer_fmrange env c.kmer_).start_ ≤ c2.fm_range_.end_ + 1
              omega
            · intro x hx hxk
              show x.fm_range_.end_ < c2.fm_range_.end_ + 1
              rcases List.mem_append.mp hx with hold | hnew
              · have := u3 x hold hxk
                omega
              · rw [List.mem_singleton.mp hnew, hufm]
                omega
            · intro src hs hsk
              show src.fm_range_.end_ < c2.fm_range_.end_ + 1
              rcases List.mem_append.mp hs with hold | hnew
              · have := u4 src hold hsk
                omega
              · rw [List.mem_singleton.mp hnew]
                show c2.fm_range_.start_ - 1 < c2.fm_range_.end_ + 1
                omega
            · intro x hxh hxk
              have hx2 : c2 = x := by
                simpa using hxh
              rw [← hx2]
              show c2.fm_range_.end_ < c2.fm_range_.end_ + 1
              omega
        | false =>
          rw [phaseC_after_pos_same_invalid env probs c c2 acc2 hok hkm hv]
          have hvgt : ¬ (acc2.unchecked.start_ ≤ c2.fm_range_.start_ - 1) := by
            simpa [Range.is_valid] using hv
          rcases le_or_lt acc2.unchecked.start_ c2.fm_range_.end_ with hle | hgt
          · rw [if_pos (decide_eq_true hle)]
            refine ⟨hsrt2, RC2, D1, D2, D3, D3e, D4, hmid.s1, hmid.s2, S3D, S4R, SK,
              BKA, fun h => absurd h NE, fun _ => PK1A, WIT, ?_⟩
            intro s0 hps hs0 hsok hcap hdo hre
            have hcs0 : c.kmer_ = s0 := by
              rw [← hmid.prevc]
              exact hps
            subst hcs0
            refine ⟨?_, ?_, ?_, ?_, ?_⟩
            · show acc2.unchecked.end_ = (kmer_fmrange env c.kmer_).end_
              exact u1
            · show (kmer_fmrange env c.kmer_).start_ ≤ c2.fm_range_.end_ + 1
              omega
            · intro x hx hxk
              show x.fm_range_.end_ < c2.fm_range_.end_ + 1
              rcases List.mem_append.mp hx with hold | hnew
              · have := u3 x hold hxk
                omega
              · rw [List.mem_singleton.mp hnew, hufm]
                omega
            · intro src hs hsk
              have := u4 src hs hsk
              show src.fm_range_.end_ < c2.fm_range_.end_ + 1
              omega
            · intro x hxh hxk
              have hx2 : c2 = x := by
                simpa using hxh
              rw [← hx2]
              show c2.fm_range_.end_ < c2.fm_range_.end_ + 1
              omega
          · rw [if_neg (by simp only [decide_eq_true_eq]; omega)]
            refine ⟨hsrt2, RC2, D1, D2, D3, D3e, D4, hmid.s1, hmid.s2, S3D, S4R, SK,
              BKA, fun h => absurd h NE, fun _ => PK1A, WIT, ?_⟩
            intro s0 hps hs0 hsok hcap hdo hre
            have hcs0 : c.kmer_ = s0 := by
              rw [← hmid.prevc]
              exact hps
            subst hcs0
            refine ⟨u1, u2, ?_, u4, ?_⟩
            · intro x hx hxk
              rcases List.mem_append.mp hx with hold | hnew
              · exact u3 x hold hxk
              · rw [List.mem_singleton.mp hnew, hufm]
                exact u5c
            · intro x hxh hxk
              have hx2 : c2 = x := by
                simpa using hxh
              rw [← hx2]
              exact hgt
      | false =>
        have hkne : c2.kmer_ ≠ c.kmer_ := by
          simpa using hkm
        have hnos0 : ∀ y ∈ c2 :: rest2, y.kmer_ ≠ c.kmer_ :=
          no_later_kmer HFdis ⟨hcfm, hck, hcst, hcen⟩ ⟨h2fm, h2k, h2st, h2en⟩
            (fun x hx =>
              (hmid.rc x (List.mem_cons_of_mem c (List.mem_cons_of_mem c2 hx))).1)
            hmid.srt hkne
        cases huv2 : acc2.unchecked.is_valid with
        | false =>
          rw [phaseC_after_pos_other_invalid env probs c c2 acc2 hok hkm huv2]
          refine ⟨hsrt2, RC2, D1, D2, D3, D3e, D4, hmid.s1, hmid.s2, S3D, S4R, SK, BKA,
            fun h => absurd h NE, fun _ => PK1A, WIT, ?_⟩
          intro s0 hps hs0 hsok hcap hdo hre
          have hcs0 : c.kmer_ = s0 := by
            rw [← hmid.prevc]
            exact hps
          obtain ⟨y, hy, hyk⟩ := hre
          exact absurd (hyk.trans hcs0.symm) (hnos0 y hy)
        | true =>
          rw [phaseC_after_pos_other_valid env probs c c2 acc2 hok hkm huv2]
          have hule : acc2.unchecked.start_ ≤ acc2.unchecked.end_ := by
            simpa [Range.is_valid] using huv2
          refine ⟨hsrt2, RC2, D1, D2, D3, D3e, D4, ?_, ?_, ?_, ?_, ?_, BKA,
            fun h => absurd h NE, fun _ => PK1A, WIT, ?_⟩
          · intro src hs
            rcases List.mem_append.mp hs with hold | hnew
            · exact hmid.s1 src hold
            · rw [List.mem_singleton.mp hnew]
              exact ⟨huv2, hck, u2, le_of_eq u1⟩
          · rw [List.pairwise_append]
            refine ⟨hmid.s2, by simp, ?_⟩
            intro a ha b hb
            rw [List.mem_singleton.mp hb]
            by_cases hak : a.kmer_ = c.kmer_
            · have h4 := u4 a ha hak
              intro he
              have he2 : a.fm_range_ = acc2.unchecked := he
              rw [he2] at h4
              omega
            · obtain ⟨hav, hakm, has, hae⟩ := hmid.s1 a ha
              exact range_ne_of_disjoint (HFdis a.kmer_ hakm c.kmer_ hck hak)
                hav huv2 has hae u2 (le_of_eq u1)
          · intro src hs x hx
            rcases List.mem_append.mp hs with hold | hnew
            · exact S3D src hold x hx
            · rw [List.mem_singleton.mp hnew]
              rcases List.mem_append.mp hx with hxold | hxnew
              · by_cases hk : x.kmer_ = c.kmer_
                · have h3 := u3 x hxold hk
                  intro he
                  have he2 : acc2.unchecked = x.fm_range_ := he
                  rw [← he2] at h3
                  omega
                · obtain ⟨hxv, hxkm, hxs, hxe⟩ := hmid.d1 x hxold
                  exact range_ne_of_disjoint
                    (HFdis c.kmer_ hck x.kmer_ hxkm (fun h => hk h.symm))
                    huv2 hxv u2 (le_of_eq u1) hxs hxe
              · rw [List.mem_singleton.mp hxnew, hufm]
                intro he
                have he2 : acc2.unchecked = c.fm_range_ := he
                rw [← he2] at u5c
                omega
          · intro src hs x hx hxk
            rcases List.mem_append.mp hs with hold | hnew
            · exact hmid.s4 src hold x (List.mem_cons_of_mem c hx) hxk
            · rw [List.mem_singleton.mp hnew] at hxk
              exact absurd hxk (hnos0 x hx)
          · intro src hs
            rcases List.mem_append.mp hs with hold | hnew
            · exact SK src hold
            · rw [List.mem_singleton.mp hnew]
              exact ⟨_, List.mem_append.mpr (Or.inr (List.mem_singleton_self _)), hukm⟩
          · intro s0 hps hs0 hsok hcap hdo hre
            have hcs0 : c.kmer_ = s0 := by
              rw [← hmid.prevc]
              exact hps
            obtain ⟨y, hy, hyk⟩ := hre
            exact absurd (hyk.trans hcs0.symm) (hnos0 y hy)

/-- The Phase C walk carries its invariant to the end of the child
list. -/
theorem phaseC_go_sound {env : Env} {probs : List ℚ} {event_i : Nat}
    (HFdis : FMDisjoint env) (HFpos : FMPositive env) :
    ∀ (rest : List PathBuffer) (acc : CAcc), CInv env probs rest acc →
      CInv env probs [] (phaseC_go env probs event_i rest acc) := by
  intro rest
  induction rest with
  | nil =>
    intro acc hinv
    exact hinv
  | cons c rest ih =>
    intro acc hinv
    have hmid := lead_inv HFdis HFpos hinv
    cases rest with
    | nil =>
      exact main_inv HFdis HFpos event_i hmid (fun c2 h => by simp at h)
    | cons c2 rest2 =>
      cases hdup : (c.fm_range_ == c2.fm_range_) with
      | true =>
        have he : c.fm_range_ = c2.fm_range_ := by simpa using hdup
        simp only [phaseC_go, List.head?_cons, hdup, if_true]
        exact ih _ (dedup_inv HFdis hmid he)
      | false =>
        have hne : c.fm_range_ ≠ c2.fm_range_ := by simpa using hdup
        simp only [phaseC_go, List.head?_cons, hdup, Bool.false_eq_true, if_false]
        refine ih _ (main_inv HFdis HFpos event_i hmid ?_)
        intro c3 h3
        have h32 : c2 = c3 := by simpa using h3
        rw [← h32]
        exact hne

/-- The range-and-probability footprint of a path, preserved by
invalidation and by `update_seeds`. -/
def fmp (p : PathBuffer) : Range × ℚ := (p.fm_range_, p.seed_prob_)

/-- Phase C moves every child into `done`, preserving ranges and
probabilities in order. -/
theorem phaseC_go_trace (env : Env) (probs : List ℚ) (event_i : Nat) :
    ∀ (rest : List PathBuffer) (acc : CAcc),
      (phaseC_go env probs event_i rest acc).done.map fmp =
        acc.done.map fmp ++ rest.map fmp := by
  intro rest
  induction rest with
  | nil =>
    intro acc
    simp [phaseC_go]
  | cons c rest ih =>
    intro acc
    have hfu : fmp (update_seeds env event_i c false).1 = fmp c := by
      obtain ⟨h1, h2, _, _⟩ := update_seeds_fst_fields env event_i c false
      simp [fmp, h1, h2]
    simp only [phaseC_go]
    split
    · rw [ih]
      simp [phaseC_lead_done, fmp, PathBuffer.invalidate]
    · rw [ih]
      simp [phaseC_after_done, phaseC_lead_done, hfu]

instance (env : Env) : Decidable (FMDisjoint env) := by
  unfold FMDisjoint
  infer_instance

instance (env : Env) : Decidable (FMPositive env) := by
  unfold FMPositive
  infer_instance

/-- C4: after Phase C (sort, dedup, source injection) of an EventStep —
run here on the sorted children with a fresh accumulator, under the
FM-index contract (disjoint k-mer intervals starting past row 0,
children contained in their k-mer's interval) — no two valid entries of
the resulting `next` (processed children plus injected sources) share an
`fm_range`, and for every child the surviving entry with its range is
valid and carries the maximal `seed_prob` among the children sharing
that range; the path ordering satisfies `a < b` iff
`a.fm_range < b.fm_range` lexicographically on (start, end) with
`seed_prob` as tiebreak, so that in the `pbLe`-sorted beam a path
sharing a range with a later one has the smaller probability — the
highest-probability sharer sorts last. -/
theorem C4_phaseC_no_dup (env : Env) (probs : List ℚ) (event_i cap K : Nat)
    (u0 : Range) (flags : List Bool) (children : List PathBuffer) (r : CAcc)
    (HFdis : FMDisjoint env) (HFpos : FMPositive env)
    (hK : env.model.kmer_count ≤ K)
    (hcs : ∀ c ∈ children, GoodChild env c)
    (hr : r = phaseC_go env probs event_i (sort_paths children)
      { done := [], srcs := [], cap := cap, seeds := [], prev_kmer := K,
        unchecked := u0, flags := flags }) :
    List.Pairwise (fun a b => a.fm_range_ ≠ b.fm_range_)
      ((r.done ++ r.srcs).filter PathBuffer.is_valid) ∧
    (∀ y ∈ children, ∃ w ∈ r.done, w.is_valid = true ∧
      w.fm_range_ = y.fm_range_ ∧
      ∀ z ∈ children, z.fm_range_ = y.fm_range_ → z.seed_prob_ ≤ w.seed_prob_) ∧
    (∀ p q : PathBuffer, PathBuffer.lt p q = true ↔
      (rangeLtP p.fm_range_ q.fm_range_ ∨
        (p.fm_range_ = q.fm_range_ ∧ p.seed_prob_ < q.seed_prob_))) ∧
    (∀ a b : PathBuffer, pbLe a b → a.fm_range_ = b.fm_range_ →
      a.seed_prob_ ≤ b.seed_prob_) ∧
    List.Pairwise pbLe (sort_paths children) ∧ (sort_paths children).Perm children := by
  have hinit : CInv env probs (sort_paths children)
      { done := [], srcs := [], cap := cap, seeds := [], prev_kmer := K,
        unchecked := u0, flags := flags } := by
    refine ⟨(sort_paths_spec children).1,
      fun c hc => hcs c (((sort_paths_spec children).2).mem_iff.mp hc),
      fun w hw => absurd hw (List.not_mem_nil w), List.Pairwise.nil,
      fun w hw => absurd hw (List.not_mem_nil w),
      fun w hw => absurd hw (List.not_mem_nil w),
      fun w hw => absurd hw (List.not_mem_nil w),
      fun s hs => absurd hs (List.not_mem_nil s), List.Pairwise.nil,
      fun s hs => absurd hs (List.not_mem_nil s),
      fun s hs => absurd hs (List.not_mem_nil s),
      fun s hs => absurd hs (List.not_mem_nil s),
      fun x hx => absurd hx (List.not_mem_nil x),
      fun _ => hK, fun h => absurd rfl h,
      fun y hy => absurd hy (List.not_mem_nil y), ?_⟩
    intro s0 hps hs0 hsok hcap hdo hre
    obtain ⟨x, hx, _⟩ := hdo
    exact absurd hx (List.not_mem_nil x)
  have hfin : CInv env probs [] r := by
    rw [hr]
    exact phaseC_go_sound HFdis HFpos _ _ hinit
  have htr : r.done.map fmp = (sort_paths children).map fmp := by
    rw [hr]
    simpa using phaseC_go_trace env probs event_i (sort_paths children)
      { done := [], srcs := [], cap := cap, seeds := [], prev_kmer := K,
        unchecked := u0, flags := flags }
  have hmem : ∀ z ∈ children, ∃ z2 ∈ r.done, fmp z2 = fmp z := by
    intro z hz
    have h1 : fmp z ∈ (sort_paths children).map fmp :=
      List.mem_map_of_mem fmp (((sort_paths_spec children).2).mem_iff.mpr hz)
    rw [← htr] at h1
    exact List.mem_map.mp h1
  refine ⟨?_, ?_, pb_lt_iff, fun a b h he => pbLe_prob_le h he,
    (sort_paths_spec children).1, (sort_paths_spec children).2⟩
  · rw [List.filter_append, List.pairwise_append]
    refine ⟨?_, hfin.s2.filter PathBuffer.is_valid, ?_⟩
    · refine List.Pairwise.imp_of_mem ?_ (hfin.d2.filter PathBuffer.is_valid)
      intro a b ha hb hab
      have hav := (List.mem_filter.mp ha).2
      have hbv := (List.mem_filter.mp hb).2
      exact fun he => rangeLtP_irrefl (he ▸ hab hav hbv)
    · intro a ha b hb
      have ha1 := (List.mem_filter.mp ha).1
      have hb1 := (List.mem_filter.mp hb).1
      exact fun he => hfin.s3 b hb1 a ha1 he.symm
  · intro y hy
    obtain ⟨y2, hy2, hfy⟩ := hmem y hy
    have hy2r : y2.fm_range_ = y.fm_range_ := congrArg Prod.fst hfy
    rcases hfin.wit y2 hy2 with ⟨w2, hw2, hval, hre, hmax, _⟩ | ⟨x, hx, _⟩
    · refine ⟨w2, hw2, hval, hre.trans hy2r, ?_⟩
      intro z hz hze
      obtain ⟨z2, hz2, hfz⟩ := hmem z hz
      have hz2r : z2.fm_range_ = z.fm_range_ := congrArg Prod.fst hfz
      have hz2p : z2.seed_prob_ = z.seed_prob_ := congrArg Prod.snd hfz
      have h := hmax z2 hz2 (by rw [hz2r, hze, ← hy2r])
      rw [← hz2p]
      exact h
    · exact absurd hx (List.not_mem_nil x)

/-- Options for the C4 witness: two k-mers with disjoint SA intervals. -/
def c4wopts : UncalledOpts :=
  { seed_len_ := 5, max_rep_copy_ := 1, min_rep_len_ := 1, max_stay_frac_ := 1,
    min_seed_prob_ := 0, max_paths_ := 8, max_consec_stay_ := 3, max_events_proc_ := 100,
    max_chunks_proc_ := 0,
    kmer_fmranges_ := [{ start_ := 1, end_ := 4 }, { start_ := 5, end_ := 9 }],
    get_prob_thresh := fun _ => 0, get_source_prob := 1 }

/-- Environment for the C4 witness. -/
def c4wenv : Env :=
  { opts := c4wopts
    model := { kmer_count := 2, alph_size := 1, event_match_prob := fun _ _ => 1,
               get_neighbor := fun _ _ => 0 }
    fmi := { size := 10, get_neighbor := fun _ _ => { start_ := 1, end_ := 0 },
             sa := fun s => s }
    get_final_valid := fun _ => false
    add_chunk := fun rb _ => (rb, true) }

/-- Two live children of k-mer 0 sharing the range [2,3], with
probabilities 1 and 2. -/
def c4wp1 : PathBuffer :=
  { length_ := 1, consec_stays_ := 0, event_types_ := 0, seed_prob_ := 1,
    fm_range_ := { start_ := 2, end_ := 3 }, kmer_ := 0, sa_checked_ := false,
    counts_match_ := 1, counts_stay_ := 0, prob_sums_ := [0, 1] }

/-- The higher-probability sibling of `c4wp1`. -/
def c4wp2 : PathBuffer :=
  { c4wp1 with seed_prob_ := 2, prob_sums_ := [0, 2] }

/-- The C4 witness beam. -/
def c4wchildren : List PathBuffer := [c4wp1, c4wp2]

/-- The C4 witness run of Phase C. -/
def c4wr : CAcc :=
  phaseC_go c4wenv [1, 0] 0 (sort_paths c4wchildren)
    { done := [], srcs := [], cap := 8, seeds := [], prev_kmer := 2,
      unchecked := { start_ := 1, end_ := 0 }, flags := [false, false] }

/-- C4 witness: the FM contract holds in the concrete environment and
the Phase C postcondition follows for a beam with a duplicated range. -/
theorem C4_phaseC_no_dup_witness :
    FMDisjoint c4wenv ∧ FMPositive c4wenv ∧ c4wenv.model.kmer_count ≤ 2 ∧
    (∀ c ∈ c4wchildren, GoodChild c4wenv c) ∧
    (List.Pairwise (fun a b => a.fm_range_ ≠ b.fm_range_)
      ((c4wr.done ++ c4wr.srcs).filter PathBuffer.is_valid) ∧
    (∀ y ∈ c4wchildren, ∃ w ∈ c4wr.done, w.is_valid = true ∧
      w.fm_range_ = y.fm_range_ ∧
      ∀ z ∈ c4wchildren, z.fm_range_ = y.fm_range_ → z.seed_prob_ ≤ w.seed_prob_) ∧
    (∀ p q : PathBuffer, PathBuffer.lt p q = true ↔
      (rangeLtP p.fm_range_ q.fm_range_ ∨
        (p.fm_range_ = q.fm_range_ ∧ p.seed_prob_ < q.seed_prob_))) ∧
    (∀ a b : PathBuffer, pbLe a b → a.fm_range_ = b.fm_range_ →
      a.seed_prob_ ≤ b.seed_prob_) ∧
    List.Pairwise pbLe (sort_paths c4wchildren) ∧
    (sort_paths c4wchildren).Perm c4wchildren) :=
  ⟨by decide, by decide, by decide, by decide,
    C4_phaseC_no_dup c4wenv [1, 0] 0 8 2 { start_ := 1, end_ := 0 } [false, false]
      c4wchildren c4wr (by decide) (by decide) (by decide) (by decide) rfl⟩

end Uncalled

